import Mathlib

/- Verification of the SafewayDeals hybrid search core: a shallow embedding of
src/search/search.py, src/search/index.py and src/search/chat.py, with theorems
about the retrieval, fusion, grouping and post-ranking pipeline.

Modelling conventions:
* Python strings are `List Char`; `str.lower()` is `List.map Char.toLower`.
* Python floats are idealized as exact rationals (ℚ): 0.5 is 1/2, 1.5 is 3/2.
* Python dicts preserve insertion order, so they are association lists
  `List (key × value)`; `upsert f k d` mirrors `d[k] = f(d.get(k))`, keeping
  an existing key in place and appending a new key at the end.
* Retriever results address records by their index in the record list; the
  source addresses them by object identity via `_rec_to_idx[id(rec)]`, which
  agrees with the index because `load_records` constructs each record fresh.
* The rapidfuzz scorer `fuzz.partial_ratio` and the sentence-transformers
  encoder are external collaborators that are out of scope per the spec; they
  enter as parameters: `scorer` (used by `fuzzy_search` and by the offer-name
  boost) and `smFn` (the output of `semantic_search` for a given fetch size).
* Word characters of the regex `\b` boundary are modelled as ASCII
  alphanumerics plus an underscore.
* Unused fields of `SearchRecord` (upc, prices, image url, aisle, size,
  rating) are omitted: no embedded function reads them.
-/

namespace SafewayDeals

/-- Python strings as lists of characters. -/
abbrev Str := List Char

/-- Python str.lower(). -/
def toLowerS (s : Str) : Str := s.map Char.toLower

/-- Whitespace test used by str.split(). -/
def isWS (c : Char) : Bool := c.isWhitespace

/-- Python str.split() with no argument: split on runs of whitespace,
producing no empty tokens. -/
def pySplit : Str → List Str
  | [] => []
  | c :: rest =>
    if isWS c then pySplit rest
    else (c :: rest.takeWhile (fun x => !isWS x)) :: pySplit (rest.dropWhile (fun x => !isWS x))
termination_by s => s.length
decreasing_by
  · simp
  · have h := (List.dropWhile_suffix (fun x => !isWS x) (l := rest)).sublist.length_le
    simp
    omega

/-- Bool test that w starts the string s (elementwise equality). -/
def startsList : Str → Str → Bool
  | [], _ => true
  | _ :: _, [] => false
  | a :: w, b :: s => a == b && startsList w s

/-- Python substring containment `w in s`. -/
def isSubstr (w : Str) : Str → Bool
  | [] => startsList w []
  | c :: rest => startsList w (c :: rest) || isSubstr w rest

/-- Word characters for the `\b` regex boundary (ASCII model of `\w`). -/
def isWordChar (c : Char) : Bool := c.isAlphanum || c == '_'

/-- Whether position p of t holds a word character (false past the end). -/
def wordAt (t : Str) (p : ℕ) : Bool :=
  match t.get? p with
  | some c => isWordChar c
  | none => false

/-- Regex `\b`: position p is a word boundary in t when exactly one of the
characters around it is a word character (string edges count as non-word). -/
def boundary (t : Str) (p : ℕ) : Bool :=
  (decide (p ≠ 0) && wordAt t (p - 1)) != wordAt t p

/-- Whether the compiled pattern `\b<w>\b` (re.escape'd, so w is literal)
matches anywhere in t: some position starts a literal copy of w with word
boundaries on both sides. -/
def wholeWord (w t : Str) : Bool :=
  (List.range (t.length + 1)).any fun i =>
    boundary t i && boundary t (i + w.length) && startsList w (t.drop i)

/-- The searchable record built by index.py (one row per (offer, product)
pair, or one offer-only row). Fields the embedded code never reads are
omitted. -/
structure SearchRecord where
  offer_id : Str
  offer_name : Str
  offer_price : Str := []
  offer_description : Str := []
  offer_category : Str := []
  offer_pgm : Str := []
  product_name : Str := []
  product_department : Str := []
  product_shelf : Str := []
  search_text : Str := []
deriving DecidableEq, Repr, Inhabited

/-- Python " ".join of the non-empty parts (index._build_search_text). -/
def joinStrs : List Str → Str
  | [] => []
  | p :: ps =>
    if p = [] then joinStrs ps
    else
      match joinStrs ps with
      | [] => p
      | q => p ++ ' ' :: q

/-- index._build_search_text: offer_name, product_name, offer_description,
product_department, product_shelf, offer_category joined by spaces. -/
def build_search_text (r : SearchRecord) : Str :=
  joinStrs [r.offer_name, r.product_name, r.offer_description,
            r.product_department, r.product_shelf, r.offer_category]

/-- A record set is well formed when each record carries the derived
search_text that index.load_records assigns to it. -/
def WellFormed (records : List SearchRecord) : Prop :=
  ∀ r ∈ records, r.search_text = build_search_text r

/-- The six scanned fields of keyword_search, pre-lowered, with their
weights (search.py lines 93-111; weights from lines 15-18). -/
def weightedFields (r : SearchRecord) : List (Str × ℚ) :=
  [(toLowerS r.offer_name, 3), (toLowerS r.product_name, 2),
   (toLowerS r.offer_description, 1), (toLowerS r.offer_category, 1/2),
   (toLowerS r.product_department, 1/2), (toLowerS r.product_shelf, 1/2)]

/-- The inner loop of keyword_search: the best weighted contribution of word
w over the six fields, with the 1.5 whole-word bonus. -/
def wordBest (r : SearchRecord) (w : Str) : ℚ :=
  (weightedFields r).foldl
    (fun best fw =>
      if isSubstr w fw.1 then max best (fw.2 * (if wholeWord w fw.1 then 3/2 else 1))
      else best) 0

/-- keyword_search per-candidate score: summed per-word maxima divided by
len(words) * 3.0 * 1.5. -/
def kwScore (words : List Str) (r : SearchRecord) : ℚ :=
  (words.map (wordBest r)).sum / (words.length * 3 * (3/2))

/-- Stable descending sort by score, mirroring Python list.sort(key=score,
reverse=True) (Python sorts are stable). -/
def sortPairsDesc (l : List (ℕ × ℚ)) : List (ℕ × ℚ) :=
  l.mergeSort (fun a b => decide (b.2 ≤ a.2))

/-- search.keyword_search: candidates are the records containing every
lowered query word in their lowered search_text; each is scored by kwScore;
sorted by score descending (stable) and capped at top_k. Results are
(record index, score) pairs. -/
def keywordSearch (query : Str) (records : List SearchRecord) (topk : ℕ) :
    List (ℕ × ℚ) :=
  let words := pySplit (toLowerS query)
  if words.isEmpty then []
  else
    let cands := (records.enum.filter
        (fun ir => words.all fun w => isSubstr w (toLowerS ir.2.search_text))).map
      fun ir => (ir.1, kwScore words ir.2)
    (sortPairsDesc cands).take topk

/-- Ordered-dict update, mirroring Python `d[k] = f(d.get(k))`: an existing
key keeps its position, a new key is appended at the end. -/
def upsert {α β : Type} [DecidableEq α] (f : Option β → β) (k : α) :
    List (α × β) → List (α × β)
  | [] => [(k, f none)]
  | p :: rest => if p.1 = k then (p.1, f (some p.2)) :: rest else p :: upsert f k rest

/-- First-match lookup in an association list (Python dict read). -/
def lookupA {α β : Type} [DecidableEq α] (k : α) : List (α × β) → Option β
  | [] => none
  | p :: rest => if p.1 = k then some p.2 else lookupA k rest

/-- rapidfuzz process.extract over an indexed choice list: keep choices whose
score reaches score_cutoff, sort by score descending (ties by index), cap at
limit. Returns (choice index, score) pairs. -/
def extractMatches (scorer : Str → Str → ℚ) (q : Str) (choices : List Str)
    (limit : ℕ) (cutoff : ℚ) : List (ℕ × ℚ) :=
  (sortPairsDesc (choices.enum.filterMap fun ic =>
    if cutoff ≤ scorer q ic.2 then some (ic.1, scorer q ic.2) else none)).take limit

/-- search.fuzzy_search: extract against the lowered offer-name and
product-name lists (limit top_k*2 each), merge by best score per record
index (offer matches first, preserving dict insertion order), sort
descending, cap at top_k. -/
def fuzzySearch (scorer : Str → Str → ℚ) (query : Str)
    (records : List SearchRecord) (threshold : ℚ) (topk : ℕ) : List (ℕ × ℚ) :=
  let ql := toLowerS query
  let om := extractMatches scorer ql (records.map fun r => toLowerS r.offer_name)
      (topk * 2) threshold
  let pm := extractMatches scorer ql (records.map fun r => toLowerS r.product_name)
      (topk * 2) threshold
  let best := (om ++ pm).foldl
    (fun acc p => upsert (fun prev => max (prev.getD 0) p.2) p.1 acc) []
  (sortPairsDesc best).take topk

/-- One retriever that contributed a record (search.py stores these as the
strings "keyword", "fuzzy", "semantic"). -/
inductive Source where
  | keyword
  | fuzzy
  | semantic
deriving DecidableEq, Repr

/-- The per-record entry of mode_scores: the best score seen from each of
the three modes, none when the mode did not return the record. -/
structure ModeScores where
  kw : Option ℚ := none
  fz : Option ℚ := none
  sm : Option ℚ := none
deriving DecidableEq, Repr

/-- len(scores) of the per-record dict: how many modes are present. -/
def ModeScores.count (ms : ModeScores) : ℕ :=
  (if ms.kw.isSome then 1 else 0) + (if ms.fz.isSome then 1 else 0) +
  (if ms.sm.isSome then 1 else 0)

/-- set(scores.keys()) of the per-record dict. The source materializes this
Python set in hash order; no property here depends on the order, so it is
rendered in the fixed order keyword, fuzzy, semantic. -/
def ModeScores.sources (ms : ModeScores) : List Source :=
  (if ms.kw.isSome then [Source.keyword] else []) ++
  (if ms.fz.isSome then [Source.fuzzy] else []) ++
  (if ms.sm.isSome then [Source.semantic] else [])

/-- The keyword collection loop body (lines 248-251). -/
def kwStep (acc : List (ℕ × ModeScores)) (p : ℕ × ℚ) : List (ℕ × ModeScores) :=
  upsert (fun prev => let ms := prev.getD {}
                      { ms with kw := some (max (ms.kw.getD 0) p.2) }) p.1 acc

/-- The fuzzy collection loop body (lines 253-256), score normalized by 100. -/
def fzStep (acc : List (ℕ × ModeScores)) (p : ℕ × ℚ) : List (ℕ × ModeScores) :=
  upsert (fun prev => let ms := prev.getD {}
                      { ms with fz := some (max (ms.fz.getD 0) (p.2 / 100)) }) p.1 acc

/-- The semantic collection loop body (lines 258-261). -/
def smStep (acc : List (ℕ × ModeScores)) (p : ℕ × ℚ) : List (ℕ × ModeScores) :=
  upsert (fun prev => let ms := prev.getD {}
                      { ms with sm := some (max (ms.sm.getD 0) p.2) }) p.1 acc

/-- The three collection loops of search (lines 246-261): mode_scores maps a
record index to its per-mode scores, each taken max-wise against a 0.0
default. -/
def buildModeScores (kwRes fzRes smRes : List (ℕ × ℚ)) : List (ℕ × ModeScores) :=
  smRes.foldl smStep (fzRes.foldl fzStep (kwRes.foldl kwStep []))

/-- The composite scoring body of search (lines 265-281): weighted
combination with the fuzzy cap, the multi-source bonus and the
semantic-only discount. -/
def compositeScore (ms : ModeScores) : ℚ :=
  let kw := ms.kw.getD 0
  let fz0 := ms.fz.getD 0
  let sm := ms.sm.getD 0
  let fz := if 0 < kw ∧ 0 < fz0 then min fz0 kw else fz0
  let c := 1/2 * kw + 1/4 * fz + 1/4 * sm +
    min (((ms.count : ℚ) - 1) * (1/10)) (1/5)
  if ms.kw = none ∧ ms.fz = none then c * (1/2) else c

/-- The deal surfaced by search, with the products that caused it to
appear (search.py DealResult). -/
structure DealResult where
  offer_id : Str
  offer_name : Str
  offer_price : Str := []
  offer_description : Str := []
  offer_category : Str := []
  offer_pgm : Str := []
  score : ℚ
  sources : List Source
  matching_products : List SearchRecord := []
deriving DecidableEq, Repr, Inhabited

/-- The per-record deal update of the grouping loop (lines 289-309): create
the offer's deal or merge into it (max score, union of sources in first-seen
order), then append the record to matching_products when it has a product
name. -/
def dealUpdate (r : SearchRecord) (sc : ℚ) (srcs : List Source)
    (prev : Option DealResult) : DealResult :=
  let d := match prev with
    | none =>
      { offer_id := r.offer_id, offer_name := r.offer_name,
        offer_price := r.offer_price, offer_description := r.offer_description,
        offer_category := r.offer_category, offer_pgm := r.offer_pgm,
        score := sc, sources := srcs, matching_products := [] }
    | some d0 =>
      { d0 with score := max d0.score sc,
                sources := srcs.foldl
                  (fun acc s => if s ∈ acc then acc else acc ++ [s]) d0.sources }
  if r.product_name ≠ [] then
    { d with matching_products := d.matching_products ++ [r] }
  else d

/-- The grouping body of search (lines 285-309) for one scored record,
filed under the record's offer id. -/
def addHit (records : List SearchRecord) (deals : List (Str × DealResult))
    (h : ℕ × ℚ × List Source) : List (Str × DealResult) :=
  let r := records.getD h.1 default
  upsert (dealUpdate r h.2.1 h.2.2) r.offer_id deals

/-- kw_product_counts (lines 225-228): per offer, how many keyword-returned
records have a product name. -/
def productCounts (records : List SearchRecord) (res : List (ℕ × ℚ)) :
    List (Str × ℕ) :=
  res.foldl (fun acc p =>
    let r := records.getD p.1 default
    if r.product_name ≠ [] then upsert (fun prev => prev.getD 0 + 1) r.offer_id acc
    else acc) []

/-- fz_product_counts (lines 231-234): per offer, how many fuzzy-returned
records with score at least 80 have a product name. -/
def productCountsStrong (records : List SearchRecord) (res : List (ℕ × ℚ)) :
    List (Str × ℕ) :=
  res.foldl (fun acc p =>
    let r := records.getD p.1 default
    if r.product_name ≠ [] ∧ 80 ≤ p.2 then
      upsert (fun prev => prev.getD 0 + 1) r.offer_id acc
    else acc) []

/-- _offer_product_counts of _ensure_caches (lines 49-53): per offer, how
many records have a product name. -/
def offerProductCounts (records : List SearchRecord) : List (Str × ℕ) :=
  records.foldl (fun acc r =>
    if r.product_name ≠ [] then upsert (fun prev => prev.getD 0 + 1) r.offer_id acc
    else acc) []

/-- The match-density loop body (lines 318-340, identical for the keyword
and the fuzzy branch) applied to one deal: a deal of an offer with products
gets its score scaled by 0.3 + 0.7 * density, where density is
matched/total, or 0.1 when the chosen counts saw no product of the offer;
offer-only deals are untouched. -/
def densityAdjust (counts totals : List (Str × ℕ)) (od : Str × DealResult) :
    Str × DealResult :=
  let total := (lookupA od.2.offer_id totals).getD 0
  if 0 < total then
    let matched := (lookupA od.2.offer_id counts).getD 0
    let density : ℚ := if 0 < matched then (matched : ℚ) / total else 1/10
    (od.1, { od.2 with score := od.2.score * (3/10 + 7/10 * density) })
  else od

/-- The match-density loop over all deals. -/
def applyDensity (counts totals : List (Str × ℕ))
    (deals : List (Str × DealResult)) : List (Str × DealResult) :=
  deals.map (densityAdjust counts totals)

/-- The offer-name boost (lines 345-352) applied to one deal: multiply the
score by 1.2 when a query word is a substring of the lowered offer name, or
else when the partial ratio of the lowered query against it reaches 80. -/
def boostAdjust (scorer : Str → Str → ℚ) (ql : Str) (qwords : List Str)
    (od : Str × DealResult) : Str × DealResult :=
  let nl := toLowerS od.2.offer_name
  if qwords.any (fun w => isSubstr w nl) then
    (od.1, { od.2 with score := od.2.score * (6/5) })
  else if 80 ≤ scorer ql nl then
    (od.1, { od.2 with score := od.2.score * (6/5) })
  else od

/-- The offer-name boost over all deals, with the query lowered and split
once. -/
def applyBoost (scorer : Str → Str → ℚ) (query : Str)
    (deals : List (Str × DealResult)) : List (Str × DealResult) :=
  deals.map (boostAdjust scorer (toLowerS query) (pySplit (toLowerS query)))

/-- Stable descending sort of deals by score (line 354). -/
def sortDealsDesc (l : List DealResult) : List DealResult :=
  l.mergeSort fun a b => decide (b.score ≤ a.score)

/-- The adaptive score cutoff (lines 361-365): against the first kept
score, keep deals whose score reaches top * 0.4 (top at least 0.5) or
top * 0.7 (otherwise). -/
def adaptiveCutoff (l : List DealResult) : List DealResult :=
  match l with
  | [] => []
  | d0 :: _ =>
    let ratio : ℚ := if 1/2 ≤ d0.score then 2/5 else 7/10
    l.filter fun d => decide (d0.score * ratio ≤ d.score)

/-- fetch_k = max(top_k * 10, 500) (line 215). -/
def fetchK (topk : ℕ) : ℕ := max (topk * 10) 500

/-- has_corpus_word (lines 240-241): some lowered query token occurs in the
corpus vocabulary, the set of lowered whitespace tokens of all records'
search_text (_ensure_caches lines 54-57). -/
def corpusHasQueryWord (query : Str) (records : List SearchRecord) : Bool :=
  (pySplit (toLowerS query)).any fun w =>
    records.any fun r => (pySplit (toLowerS r.search_text)).contains w

/-- The closing lines 354-367 of search: sort by score descending, cap at
top_k, apply the adaptive cutoff. -/
def finalizeResults (topk : ℕ) (l : List DealResult) : List DealResult :=
  adaptiveCutoff ((sortDealsDesc l).take topk)

/-- The gibberish gate condition of search (lines 238-242): keyword found
nothing, no fuzzy score reaches 80, and no query word is in the corpus
vocabulary. -/
def gibberishGate (scorer : Str → Str → ℚ) (query : Str)
    (records : List SearchRecord) (fk : ℕ) : Bool :=
  (keywordSearch query records fk).isEmpty &&
  !((fuzzySearch scorer query records 60 fk).any fun p => decide (80 ≤ p.2)) &&
  !corpusHasQueryWord query records

/-- The post-gate body of search (lines 245-367): fuse per-record scores,
group by offer, apply the density penalty (keyword counts when any, else
strong-fuzzy counts when any), the offer-name boost, then sort, cap and
cut off. -/
def searchPipeline (scorer : Str → Str → ℚ) (smFn : ℕ → List (ℕ × ℚ))
    (query : Str) (records : List SearchRecord) (topk : ℕ) : List DealResult :=
  let fk := fetchK topk
  let kwRes := keywordSearch query records fk
  let fzRes := fuzzySearch scorer query records 60 fk
  let smRes := smFn fk
  let kwCounts := productCounts records kwRes
  let fzCounts := productCountsStrong records fzRes
  let hits := (buildModeScores kwRes fzRes smRes).map
    fun p => (p.1, compositeScore p.2, p.2.sources)
  let deals := hits.foldl (addHit records) []
  let totals := offerProductCounts records
  let deals2 :=
    if !kwCounts.isEmpty then applyDensity kwCounts totals deals
    else if !fzCounts.isEmpty then applyDensity fzCounts totals deals
    else deals
  finalizeResults topk ((applyBoost scorer query deals2).map (·.2))

/-- search (lines 200-367): the retrievers run over the same record set
with fetch_k = max(top_k * 10, 500); the empty sequence when the gibberish
gate fires, the fused, grouped, adjusted and cut-off deals otherwise. -/
def search (scorer : Str → Str → ℚ) (smFn : ℕ → List (ℕ × ℚ)) (query : Str)
    (records : List SearchRecord) (topk : ℕ) : List DealResult :=
  if gibberishGate scorer query records (fetchK topk) then []
  else searchPipeline scorer smFn query records topk

/-- Decimal value of a non-empty all-digit string, none otherwise. -/
def digitsVal : Str → Option ℕ
  | [] => none
  | [c] => if c.isDigit then some (c.toNat - '0'.toNat) else none
  | c :: rest =>
    if c.isDigit then
      (digitsVal rest).map fun n => (c.toNat - '0'.toNat) * 10 ^ rest.length + n
    else none

/-- Python int(str): optional surrounding whitespace, an optional sign,
then decimal digits (digit-group underscores are not modelled; no input
here uses them). -/
def parseIntS (s : Str) : Option ℤ :=
  let t := ((s.dropWhile isWS).reverse.dropWhile isWS).reverse
  match t with
  | '-' :: ds => (digitsVal ds).map fun n => -(n : ℤ)
  | '+' :: ds => (digitsVal ds).map fun n => (n : ℤ)
  | ds => (digitsVal ds).map fun n => (n : ℤ)

/-- Python int(float) truncates toward zero. -/
def pyTrunc (q : ℚ) : ℤ := if 0 ≤ q then ⌊q⌋ else ⌈q⌉

/-- chat._days_until_expiry: none for an empty or unparseable end date,
otherwise the clamped whole number of days from now_ms to end_ms. -/
def daysUntilExpiry (endStr : Str) (nowMs : ℤ) : Option ℤ :=
  if endStr = [] then none
  else
    match parseIntS endStr with
    | none => none
    | some endMs =>
      some (max 0 (pyTrunc (((endMs - nowMs : ℤ) : ℚ) / (1000 * 60 * 60 * 24))))

/-- The expiry windows of chat._filter_by_expiry:
today = 0, week = 7, month = 30 days; none otherwise. -/
def maxDaysOf (expiry : Str) : Option ℤ :=
  if expiry = "today".toList then some 0
  else if expiry = "week".toList then some 7
  else if expiry = "month".toList then some 30
  else none

/-- One entry of the raw deals_data handed to the chat layer: only the two
keys the expiry filter reads. -/
structure RawDeal where
  offerId : Str
  endDate : Str
deriving DecidableEq, Repr

/-- chat._filter_by_expiry: with no active window return the deals
unchanged; otherwise look each deal's end date up in the offerId → endDate
dict (a comprehension, so a later duplicate key wins) and keep exactly the
deals whose days-until-expiry is defined and at most the window. -/
def filterByExpiry (deals : List DealResult) (expiry : Str)
    (data : List RawDeal) (nowMs : ℤ) : List DealResult :=
  match maxDaysOf expiry with
  | none => deals
  | some maxDays =>
    let endDates := data.foldl (fun acc d => upsert (fun _ => d.endDate) d.offerId acc) []
    deals.filter fun deal =>
      match daysUntilExpiry ((lookupA deal.offer_id endDates).getD []) nowMs with
      | none => false
      | some days => decide (days ≤ maxDays)

/-- The values stored in mode_scores are nonnegative (each is a max against
a 0.0 default) and every entry has at least one mode. -/
def MSok (ms : ModeScores) : Prop :=
  (∀ v, ms.kw = some v → 0 ≤ v) ∧ (∀ v, ms.fz = some v → 0 ≤ v) ∧
  (∀ v, ms.sm = some v → 0 ≤ v) ∧ 1 ≤ ms.count

/-- A deal entry of the grouping dict keyed by the offer id it was filed
under: the deal carries that offer id and so does each matching product. -/
def DealInv (od : Str × DealResult) : Prop :=
  od.2.offer_id = od.1 ∧ ∀ p ∈ od.2.matching_products, p.offer_id = od.1

/-- Bundle of grouping-dict invariants: distinct keys, key consistency of
each deal and its products, nonnegative scores. -/
def DealsProps (X : List (Str × DealResult)) : Prop :=
  (X.map Prod.fst).Nodup ∧ (∀ od ∈ X, DealInv od) ∧ (∀ od ∈ X, 0 ≤ od.2.score)

/-- A constantly-zero scorer: a concrete stand-in for fuzz.partial_ratio in
witnesses whose strings share no characters at all (rapidfuzz scores such
pairs 0). -/
def zeroScorer : Str → Str → ℚ := fun _ _ => 0

/-- A semantic retriever returning nothing, for witnesses. -/
def emptySm : ℕ → List (ℕ × ℚ) := fun _ => []

/-- A semantic retriever placing record 0 at similarity 1/2, for witnesses. -/
def sampleSm : ℕ → List (ℕ × ℚ) := fun _ => [(0, 1/2)]

/-- A one-record corpus for witnesses: an offer-only record whose
search_text is derived as index.load_records derives it. -/
def sampleRecord : SearchRecord :=
  { offer_id := ['o'], offer_name := ['a'], search_text := ['a'] }

/-- The claim's keyword scoring formula, stated as the spec words it (one
contribution per word/field pair): zero when the word is not a substring of
the field, else weight times the whole-word bonus. -/
def specContribution (w field : Str) (weight : ℚ) : ℚ :=
  if isSubstr w field then weight * (if wholeWord w field then 3/2 else 1) else 0

/-- The claim's per-word score: the maximum contribution across the six
weighted fields. -/
def specWordScore (r : SearchRecord) (w : Str) : ℚ :=
  ((weightedFields r).map fun fw => specContribution w fw.1 fw.2).foldl max 0

/-- The claim's keyword score: summed per-word maxima over the
normalization constant len(words) * 3.0 * 1.5. -/
def specKwScore (words : List Str) (r : SearchRecord) : ℚ :=
  (words.map (specWordScore r)).sum / (words.length * 3 * (3/2))

/-- The fusion formula exactly as the claim words it: per-mode scores with
0 for an absent mode, fuzzy divided by 100, the fuzzy cap, the multi-source
bonus from the number of modes present, and the semantic-only halving. -/
def claimFusion (kw fz sm : Option ℚ) : ℚ :=
  let kwv := kw.getD 0
  let fzv := (fz.getD 0) / 100
  let fzc := if 0 < kwv ∧ 0 < fzv then min fzv kwv else fzv
  let modes : ℕ := (if kw.isSome then 1 else 0) + (if fz.isSome then 1 else 0) +
    (if sm.isSome then 1 else 0)
  let c := 1/2 * kwv + 1/4 * fzc + 1/4 * (sm.getD 0) +
    min (((modes : ℚ) - 1) * (1/10)) (1/5)
  if kw = none ∧ fz = none then c * (1/2) else c

/-- The claim's fusion formula amended to what the collection loops do:
each present score is first clamped below at 0 (the loops store
max(0.0, score)), the fuzzy one after division by 100. -/
def clampedFusion (kw fz sm : Option ℚ) : ℚ :=
  let kwv := max 0 (kw.getD 0)
  let fzv := max 0 ((fz.getD 0) / 100)
  let smv := max 0 (sm.getD 0)
  let fzc := if 0 < kwv ∧ 0 < fzv then min fzv kwv else fzv
  let modes : ℕ := (if kw.isSome then 1 else 0) + (if fz.isSome then 1 else 0) +
    (if sm.isSome then 1 else 0)
  let c := 1/2 * kwv + 1/4 * fzc + 1/4 * smv +
    min (((modes : ℚ) - 1) * (1/10)) (1/5)
  if kw = none ∧ fz = none then c * (1/2) else c

/-- The mode_scores entry that the three collection loops produce for a
record index, given that index's score in each retriever list (none when
the index never appears). -/
def expectedMS (kw fz sm : Option ℚ) : Option ModeScores :=
  match kw, fz, sm with
  | none, none, none => none
  | _, _, _ => some { kw := kw.map (fun s => max 0 s),
                      fz := fz.map (fun s => max 0 (s / 100)),
                      sm := sm.map (fun s => max 0 s) }

/-- The claim's density: matched/total when the chosen counts saw a product
of the offer, the 0.1 fallback otherwise. -/
def densityOf (matched total : ℕ) : ℚ :=
  if 0 < matched then (matched : ℚ) / (total : ℚ) else 1/10

/-- The claim's density multiplier 0.3 + 0.7 * density. -/
def densityMult (matched total : ℕ) : ℚ := 3/10 + 7/10 * densityOf matched total

/-- A one-product record for witnesses, with the derived search_text. -/
def sampleProductRecord : SearchRecord :=
  { offer_id := ['o'], offer_name := ['n'], product_name := ['p'],
    search_text := ['n', ' ', 'p'] }

/-- A deal for witnesses. -/
def sampleDeal : DealResult :=
  { offer_id := ['o'], offer_name := ['n'], score := 1, sources := [Source.keyword] }

/-- Strict positivity of every stored mode score, with at least one mode
present. -/
def MSpos (ms : ModeScores) : Prop :=
  (∀ v, ms.kw = some v → 0 < v) ∧ (∀ v, ms.fz = some v → 0 < v) ∧
  (∀ v, ms.sm = some v → 0 < v) ∧ 1 ≤ ms.count

/-- A record for the zero-score run: its search_text is the derived one and
its description holds the query's first word, so the gibberish gate does not
fire while keyword search still rejects the two-word query. -/
def cexRecord : SearchRecord :=
  { offer_id := ['o'], offer_name := ['n'], offer_description := ['a'],
    search_text := ['n', ' ', 'a'] }

/-- A semantic retriever placing record 0 at similarity exactly 0 (a query
embedded orthogonally to the record's embedding). -/
def zeroSimSm : ℕ → List (ℕ × ℚ) := fun _ => [(0, 0)]

/-- A record whose offer name contains a space, with the derived
search_text. -/
def wsRecord : SearchRecord :=
  { offer_id := ['o'], offer_name := ['x', ' ', 'y'],
    search_text := ['x', ' ', 'y'] }

/-- A scorer standing in for fuzz.partial_ratio at the pairs the
whitespace-query run evaluates: a single space aligns exactly with the
space inside "x y", so the partial ratio there is 100; every other pair
evaluated here shares no characters, so it scores 0. -/
def spaceScorer : Str → Str → ℚ := fun q c =>
  if q = [' '] ∧ c = ['x', ' ', 'y'] then 100 else 0

/-- The keyword-matched record of the two-limit runs: its category holds
the query word "q" (a 0.5-weight field, keeping the keyword score low);
search_text is the derived one. -/
def kwRecord : SearchRecord :=
  { offer_id := ['z'], offer_name := ['n'], offer_category := ['q'],
    search_text := ['n', ' ', 'q'] }

/-- The i-th padding record of the two-limit runs: a distinct offer with a
distinct product-free name that does not contain the query word. -/
def mkPad (i : ℕ) : SearchRecord :=
  { offer_id := List.replicate i 'o', offer_name := List.replicate i 'n',
    search_text := List.replicate i 'n' }

/-- The 520-record corpus of the two-limit runs: the keyword record at
index 0, padding records at indices 1 through 519. -/
def bigRecords : List SearchRecord :=
  kwRecord :: (List.range' 1 519).map mkPad

/-- The cosine similarity the encoder assigns to the i-th padding record
for the query "q": distinct values, strictly decreasing in i, all within
(0.1, 0.5). -/
def padSim (i : ℕ) : ℚ :=
  if i = 1 then 499/1000 else ((2000 - (i:ℤ) : ℤ) : ℚ)/10000

/-- The semantic retriever of the two-limit runs: sorted by similarity
descending, the 520 records rank the padding records first (indices 1..519,
similarity decreasing) and the keyword record last (index 0, similarity
0.01 below every padSim); the retriever hands back the top fetch-k of that
ranking. -/
def bigSm : ℕ → List (ℕ × ℚ) := fun fk =>
  (((List.range' 1 519).map fun i => (i, padSim i)) ++ [(0, 1/100)]).take fk

/-- The deal the pipeline builds for the i-th padding record in the
two-limit runs: semantic-only, so its composite is padSim i / 8. -/
def padDeal (i : ℕ) : DealResult :=
  { offer_id := List.replicate i 'o', offer_name := List.replicate i 'n',
    score := padSim i * (1/8), sources := [Source.semantic] }

/-- The deal built for the keyword record when only the keyword retriever
returns it (the 510-fetch run): composite 0.5 * (1/6). -/
def kwDeal1 : DealResult :=
  { offer_id := ['z'], offer_name := ['n'], offer_category := ['q'],
    score := 1/12, sources := [Source.keyword] }

/-- The deal built for the keyword record when the larger fetch also hands
it the semantic similarity 0.01 (the 520-fetch run): composite
0.5/6 + 0.01/4 + 0.1. -/
def kwDeal2 : DealResult :=
  { offer_id := ['z'], offer_name := ['n'], offer_category := ['q'],
    score := 223/1200, sources := [Source.keyword, Source.semantic] }

/- ------------------------------------------------------------------ -/
/- Infrastructure lemmas                                               -/
/- ------------------------------------------------------------------ -/

theorem foldl_preserves {γ δ : Type} {P : δ → Prop} {g : δ → γ → δ}
    (h : ∀ d x, P d → P (g d x)) : ∀ (l : List γ) (d : δ), P d → P (l.foldl g d) := by
  intro l
  induction l with
  | nil => intro d hd; exact hd
  | cons x xs ih => intro d hd; exact ih (g d x) (h d x hd)

theorem upsert_forall {α β : Type} [DecidableEq α] {P : α × β → Prop}
    {f : Option β → β} {k : α} :
    ∀ {l : List (α × β)}, (∀ p ∈ l, P p) →
    (∀ prev : Option β, (∀ v, prev = some v → P (k, v)) → P (k, f prev)) →
    ∀ p ∈ upsert f k l, P p := by
  intro l
  induction l with
  | nil =>
    intro _ hf p hp
    simp only [upsert, List.mem_singleton] at hp
    subst hp
    exact hf none (by simp)
  | cons q rest ih =>
    intro hl hf p hp
    simp only [upsert] at hp
    by_cases hqk : q.1 = k
    · simp only [if_pos hqk, List.mem_cons] at hp
      rcases hp with h | h
      · subst h
        rw [hqk]
        exact hf (some q.2) (by rintro v ⟨rfl⟩; rw [← hqk]; exact hl q (List.mem_cons_self q rest))
      · exact hl p (List.mem_cons_of_mem q h)
    · simp only [if_neg hqk, List.mem_cons] at hp
      rcases hp with h | h
      · subst h; exact hl p (List.mem_cons_self p rest)
      · exact ih (fun r hr => hl r (List.mem_cons_of_mem q hr)) hf p h

theorem keys_upsert {α β : Type} [DecidableEq α] (f : Option β → β) (k : α) :
    ∀ (l : List (α × β)), (upsert f k l).map Prod.fst =
      if k ∈ l.map Prod.fst then l.map Prod.fst else l.map Prod.fst ++ [k] := by
  intro l
  induction l with
  | nil => simp [upsert]
  | cons q rest ih =>
    simp only [upsert]
    by_cases hqk : q.1 = k
    · simp [hqk]
    · have hkq : ¬k = q.1 := fun h => hqk h.symm
      simp only [if_neg hqk, List.map_cons, ih, List.mem_cons]
      by_cases hmem : k ∈ rest.map Prod.fst
      · simp [hmem, hkq]
      · simp [hmem, hkq]

theorem nodup_keys_upsert {α β : Type} [DecidableEq α] {f : Option β → β}
    {k : α} {l : List (α × β)} (h : (l.map Prod.fst).Nodup) :
    ((upsert f k l).map Prod.fst).Nodup := by
  rw [keys_upsert]
  by_cases hmem : k ∈ l.map Prod.fst
  · simpa [hmem]
  · simp only [if_neg hmem]
    exact List.Nodup.append h (List.nodup_singleton k) (by simpa using hmem)

theorem lookupA_getD_pos {α : Type} [DecidableEq α] (k : α) :
    ∀ l : List (α × ℕ), (∀ p ∈ l, 0 < p.2) → k ∈ l.map Prod.fst →
      0 < (lookupA k l).getD 0 := by
  intro l
  induction l with
  | nil => simp
  | cons q rest ih =>
    intro hpos hk
    simp only [lookupA]
    by_cases hq : q.1 = k
    · simpa [hq] using hpos q (List.mem_cons_self q rest)
    · have : k ∈ rest.map Prod.fst := by
        rcases List.mem_cons.1 hk with h | h
        · exact absurd h.symm hq
        · exact h
      simpa [hq] using ih (fun p hp => hpos p (List.mem_cons_of_mem q hp)) this

theorem sortPairsDesc_perm (l : List (ℕ × ℚ)) : (sortPairsDesc l).Perm l :=
  List.mergeSort_perm l _

theorem sortPairsDesc_sorted (l : List (ℕ × ℚ)) :
    (sortPairsDesc l).Pairwise (fun a b => b.2 ≤ a.2) := by
  have h := @List.sorted_mergeSort (ℕ × ℚ) (fun a b => decide (b.2 ≤ a.2))
    (fun a b c hab hbc => by
      simp only [decide_eq_true_eq] at *
      exact le_trans hbc hab)
    (fun a b => by
      simp only [Bool.or_eq_true, decide_eq_true_eq]
      exact le_total b.2 a.2) l
  exact h.imp (by simp)

theorem sortDealsDesc_perm (l : List DealResult) : (sortDealsDesc l).Perm l :=
  List.mergeSort_perm l _

theorem sortDealsDesc_sorted (l : List DealResult) :
    (sortDealsDesc l).Pairwise (fun a b => b.score ≤ a.score) := by
  have h := @List.sorted_mergeSort DealResult (fun a b => decide (b.score ≤ a.score))
    (fun a b c hab hbc => by
      simp only [decide_eq_true_eq] at *
      exact le_trans hbc hab)
    (fun a b => by
      simp only [Bool.or_eq_true, decide_eq_true_eq]
      exact le_total b.score a.score) l
  exact h.imp (by simp)

theorem foldl_preserves_mem {γ δ : Type} {P : δ → Prop} {g : δ → γ → δ} :
    ∀ {l : List γ}, (∀ d x, x ∈ l → P d → P (g d x)) →
    ∀ {d : δ}, P d → P (l.foldl g d) := by
  intro l
  induction l with
  | nil => intro _ d hd; exact hd
  | cons x xs ih =>
    intro h d hd
    exact ih (fun d y hy => h d y (List.mem_cons_of_mem x hy))
      (h d x (List.mem_cons_self x xs) hd)

theorem count_ge_one_of_kw {ms : ModeScores} (h : ms.kw.isSome) : 1 ≤ ms.count := by
  simp only [ModeScores.count, h, if_true]
  omega

theorem count_ge_one_of_fz {ms : ModeScores} (h : ms.fz.isSome) : 1 ≤ ms.count := by
  simp only [ModeScores.count, h, if_true]
  omega

theorem count_ge_one_of_sm {ms : ModeScores} (h : ms.sm.isSome) : 1 ≤ ms.count := by
  simp only [ModeScores.count, h, if_true]
  omega

theorem getD_nonneg {o : Option ℚ} (h : ∀ v, o = some v → 0 ≤ v) : 0 ≤ o.getD 0 := by
  cases o with
  | none => simp
  | some v => simpa using h v rfl

theorem MSok_upd_kw (prev : Option ModeScores)
    (h : ∀ v, prev = some v → MSok v) (s : ℚ) :
    MSok { prev.getD {} with kw := some (max ((prev.getD {}).kw.getD 0) s) } := by
  have h0 : 0 ≤ (prev.getD {}).kw.getD 0 := by
    cases prev with
    | none => simp
    | some ms => exact getD_nonneg (h ms rfl).1
  have hrest : (∀ v, (prev.getD {}).fz = some v → 0 ≤ v) ∧
      (∀ v, (prev.getD {}).sm = some v → 0 ≤ v) := by
    cases prev with
    | none => simp
    | some ms => exact ⟨(h ms rfl).2.1, (h ms rfl).2.2.1⟩
  refine ⟨fun v hv => ?_, hrest.1, hrest.2, count_ge_one_of_kw (by simp)⟩
  simp only [Option.some.injEq] at hv
  subst hv
  exact le_max_of_le_left h0

theorem MSok_upd_fz (prev : Option ModeScores)
    (h : ∀ v, prev = some v → MSok v) (s : ℚ) :
    MSok { prev.getD {} with fz := some (max ((prev.getD {}).fz.getD 0) s) } := by
  have h0 : 0 ≤ (prev.getD {}).fz.getD 0 := by
    cases prev with
    | none => simp
    | some ms => exact getD_nonneg (h ms rfl).2.1
  have hrest : (∀ v, (prev.getD {}).kw = some v → 0 ≤ v) ∧
      (∀ v, (prev.getD {}).sm = some v → 0 ≤ v) := by
    cases prev with
    | none => simp
    | some ms => exact ⟨(h ms rfl).1, (h ms rfl).2.2.1⟩
  refine ⟨hrest.1, fun v hv => ?_, hrest.2, count_ge_one_of_fz (by simp)⟩
  simp only [Option.some.injEq] at hv
  subst hv
  exact le_max_of_le_left h0

theorem MSok_upd_sm (prev : Option ModeScores)
    (h : ∀ v, prev = some v → MSok v) (s : ℚ) :
    MSok { prev.getD {} with sm := some (max ((prev.getD {}).sm.getD 0) s) } := by
  have h0 : 0 ≤ (prev.getD {}).sm.getD 0 := by
    cases prev with
    | none => simp
    | some ms => exact getD_nonneg (h ms rfl).2.2.1
  have hrest : (∀ v, (prev.getD {}).kw = some v → 0 ≤ v) ∧
      (∀ v, (prev.getD {}).fz = some v → 0 ≤ v) := by
    cases prev with
    | none => simp
    | some ms => exact ⟨(h ms rfl).1, (h ms rfl).2.1⟩
  refine ⟨hrest.1, hrest.2, fun v hv => ?_, count_ge_one_of_sm (by simp)⟩
  simp only [Option.some.injEq] at hv
  subst hv
  exact le_max_of_le_left h0

theorem kwStep_ok (acc : List (ℕ × ModeScores)) (x : ℕ × ℚ)
    (hacc : ∀ p ∈ acc, MSok p.2) : ∀ p ∈ kwStep acc x, MSok p.2 := by
  unfold kwStep
  exact upsert_forall (P := fun p => MSok p.2) hacc
    fun prev hprev => MSok_upd_kw prev (fun v hv => hprev v hv) x.2

theorem fzStep_ok (acc : List (ℕ × ModeScores)) (x : ℕ × ℚ)
    (hacc : ∀ p ∈ acc, MSok p.2) : ∀ p ∈ fzStep acc x, MSok p.2 := by
  unfold fzStep
  exact upsert_forall (P := fun p => MSok p.2) hacc
    fun prev hprev => MSok_upd_fz prev (fun v hv => hprev v hv) (x.2 / 100)

theorem smStep_ok (acc : List (ℕ × ModeScores)) (x : ℕ × ℚ)
    (hacc : ∀ p ∈ acc, MSok p.2) : ∀ p ∈ smStep acc x, MSok p.2 := by
  unfold smStep
  exact upsert_forall (P := fun p => MSok p.2) hacc
    fun prev hprev => MSok_upd_sm prev (fun v hv => hprev v hv) x.2

theorem buildModeScores_ok (kwRes fzRes smRes : List (ℕ × ℚ)) :
    ∀ p ∈ buildModeScores kwRes fzRes smRes, MSok p.2 := by
  unfold buildModeScores
  have h1 : ∀ p ∈ kwRes.foldl kwStep [], MSok p.2 :=
    foldl_preserves_mem (P := fun acc => ∀ p ∈ acc, MSok p.2)
      (fun acc x _ hacc => kwStep_ok acc x hacc) (by simp)
  have h2 : ∀ p ∈ fzRes.foldl fzStep (kwRes.foldl kwStep []), MSok p.2 :=
    foldl_preserves_mem (P := fun acc => ∀ p ∈ acc, MSok p.2)
      (fun acc x _ hacc => fzStep_ok acc x hacc) h1
  exact foldl_preserves_mem (P := fun acc => ∀ p ∈ acc, MSok p.2)
    (fun acc x _ hacc => smStep_ok acc x hacc) h2

theorem compositeScore_nonneg {ms : ModeScores} (h : MSok ms) :
    0 ≤ compositeScore ms := by
  obtain ⟨hkw, hfz, hsm, hcount⟩ := h
  have hkw0 : 0 ≤ ms.kw.getD 0 := getD_nonneg hkw
  have hfz0 : 0 ≤ ms.fz.getD 0 := getD_nonneg hfz
  have hsm0 : 0 ≤ ms.sm.getD 0 := getD_nonneg hsm
  have hbonus : 0 ≤ min (((ms.count : ℚ) - 1) * (1/10)) (1/5) := by
    apply le_min
    · have : (1 : ℚ) ≤ (ms.count : ℚ) := by exact_mod_cast hcount
      nlinarith
    · norm_num
  unfold compositeScore
  have hfzcap : 0 ≤ (if 0 < ms.kw.getD 0 ∧ 0 < ms.fz.getD 0
      then min (ms.fz.getD 0) (ms.kw.getD 0) else ms.fz.getD 0) := by
    split
    · exact le_min hfz0 hkw0
    · exact hfz0
  have hc : 0 ≤ 1/2 * ms.kw.getD 0 + 1/4 * (if 0 < ms.kw.getD 0 ∧ 0 < ms.fz.getD 0
      then min (ms.fz.getD 0) (ms.kw.getD 0) else ms.fz.getD 0) + 1/4 * ms.sm.getD 0 +
      min (((ms.count : ℚ) - 1) * (1/10)) (1/5) := by positivity
  split
  · linarith
  · exact hc

theorem eta_score (od : Str × DealResult) :
    (od.1, { od.2 with score := od.2.score }) = od := by
  rcases od with ⟨k, d⟩
  cases d
  rfl

theorem densityAdjust_score_cases (c t : List (Str × ℕ)) (od : Str × DealResult) :
    densityAdjust c t od = od ∨
    ∃ m : ℚ, 3/10 < m ∧
      densityAdjust c t od = (od.1, { od.2 with score := od.2.score * m }) := by
  simp only [densityAdjust]
  split
  · next htotal =>
    right
    refine ⟨_, ?_, rfl⟩
    have hd : (0:ℚ) < (if 0 < (lookupA od.2.offer_id c).getD 0
        then ((lookupA od.2.offer_id c).getD 0 : ℚ) / ((lookupA od.2.offer_id t).getD 0 : ℚ)
        else 1/10) := by
      split
      · next hm =>
        apply div_pos
        · exact_mod_cast hm
        · exact_mod_cast htotal
      · norm_num
    nlinarith [hd]
  · left; rfl

theorem densityAdjust_shape (c t : List (Str × ℕ)) (od : Str × DealResult) :
    ∃ q : ℚ, densityAdjust c t od = (od.1, { od.2 with score := q }) := by
  rcases densityAdjust_score_cases c t od with h | ⟨m, _, h⟩
  · exact ⟨od.2.score, by rw [h, eta_score]⟩
  · exact ⟨od.2.score * m, h⟩

theorem boostAdjust_score_cases (scorer : Str → Str → ℚ) (ql : Str)
    (qwords : List Str) (od : Str × DealResult) :
    boostAdjust scorer ql qwords od = od ∨
    boostAdjust scorer ql qwords od = (od.1, { od.2 with score := od.2.score * (6/5) }) := by
  simp only [boostAdjust]
  split
  · right; rfl
  · split
    · right; rfl
    · left; rfl

theorem boostAdjust_shape (scorer : Str → Str → ℚ) (ql : Str)
    (qwords : List Str) (od : Str × DealResult) :
    ∃ q : ℚ, boostAdjust scorer ql qwords od = (od.1, { od.2 with score := q }) := by
  rcases boostAdjust_score_cases scorer ql qwords od with h | h
  · exact ⟨od.2.score, by rw [h, eta_score]⟩
  · exact ⟨od.2.score * (6/5), h⟩

theorem dealUpdate_offer_id (r : SearchRecord) (sc : ℚ) (srcs : List Source) :
    ∀ prev, (dealUpdate r sc srcs prev).offer_id =
      (match prev with | none => r.offer_id | some d0 => d0.offer_id) := by
  intro prev
  cases prev <;> unfold dealUpdate <;> dsimp only <;> split <;> rfl

theorem dealUpdate_products (r : SearchRecord) (sc : ℚ) (srcs : List Source)
    (prev : Option DealResult) :
    (dealUpdate r sc srcs prev).matching_products =
      (match prev with
        | none => ([] : List SearchRecord)
        | some d0 => d0.matching_products) ++
      (if r.product_name ≠ [] then [r] else []) := by
  cases prev <;> unfold dealUpdate <;> dsimp only <;> split <;> simp

theorem dealUpdate_score (r : SearchRecord) (sc : ℚ) (srcs : List Source)
    (prev : Option DealResult) :
    (dealUpdate r sc srcs prev).score =
      (match prev with | none => sc | some d0 => max d0.score sc) := by
  cases prev <;> unfold dealUpdate <;> dsimp only <;> split <;> rfl

theorem addHit_props (records : List SearchRecord) (deals : List (Str × DealResult))
    (x : ℕ × ℚ × List Source) (hx : 0 ≤ x.2.1) (h : DealsProps deals) :
    DealsProps (addHit records deals x) := by
  obtain ⟨hnodup, hinv, hnn⟩ := h
  refine ⟨?_, ?_, ?_⟩
  · exact nodup_keys_upsert hnodup
  · unfold addHit
    apply upsert_forall (P := DealInv) hinv
    intro prev hprev
    constructor
    · rw [dealUpdate_offer_id]
      cases prev with
      | none => rfl
      | some d0 => exact (hprev d0 rfl).1
    · intro p hp
      rw [dealUpdate_products] at hp
      rcases List.mem_append.1 hp with hp | hp
      · cases prev with
        | none => simp at hp
        | some d0 => exact (hprev d0 rfl).2 p hp
      · by_cases hpn : (records.getD x.1 default).product_name ≠ []
        · rw [if_pos hpn] at hp
          have hp2 := List.mem_singleton.1 hp
          subst hp2
          rfl
        · rw [if_neg hpn] at hp
          simp at hp
  · unfold addHit
    apply upsert_forall (P := fun od : Str × DealResult => 0 ≤ od.2.score) hnn
    intro prev hprev
    show 0 ≤ (dealUpdate _ _ _ prev).score
    rw [dealUpdate_score]
    cases prev with
    | none => exact hx
    | some d0 => exact le_max_of_le_left (hprev d0 rfl)

theorem grouped_props (records : List SearchRecord) (hits : List (ℕ × ℚ × List Source))
    (hs : ∀ x ∈ hits, 0 ≤ x.2.1) : DealsProps (hits.foldl (addHit records) []) := by
  apply foldl_preserves_mem (P := DealsProps)
  · intro d x hxl hd
    exact addHit_props records d x (hs x hxl) hd
  · exact ⟨by simp, by simp, by simp⟩

theorem applyDensity_props (c t : List (Str × ℕ)) (X : List (Str × DealResult))
    (h : DealsProps X) : DealsProps (applyDensity c t X) := by
  obtain ⟨hnodup, hinv, hnn⟩ := h
  refine ⟨?_, ?_, ?_⟩
  · unfold applyDensity
    rw [List.map_map]
    have : (Prod.fst ∘ densityAdjust c t) = Prod.fst := by
      funext od
      obtain ⟨q, hq⟩ := densityAdjust_shape c t od
      simp [hq]
    rw [this]
    exact hnodup
  · intro od' hod'
    obtain ⟨od, hod, hmap⟩ := List.mem_map.1 hod'
    obtain ⟨q, hq⟩ := densityAdjust_shape c t od
    obtain ⟨hid, hprod⟩ := hinv od hod
    rw [← hmap, hq]
    exact ⟨hid, hprod⟩
  · intro od' hod'
    obtain ⟨od, hod, hmap⟩ := List.mem_map.1 hod'
    rcases densityAdjust_score_cases c t od with hc | ⟨m, hm, hc⟩
    · rw [← hmap, hc]; exact hnn od hod
    · rw [← hmap, hc]
      have := hnn od hod
      have hm0 : (0:ℚ) ≤ m := le_of_lt (lt_trans (by norm_num) hm)
      simpa using mul_nonneg this hm0

theorem applyBoost_props (scorer : Str → Str → ℚ) (query : Str)
    (X : List (Str × DealResult)) (h : DealsProps X) :
    DealsProps (applyBoost scorer query X) := by
  obtain ⟨hnodup, hinv, hnn⟩ := h
  refine ⟨?_, ?_, ?_⟩
  · unfold applyBoost
    rw [List.map_map]
    have : (Prod.fst ∘ boostAdjust scorer (toLowerS query) (pySplit (toLowerS query))) =
        Prod.fst := by
      funext od
      obtain ⟨q, hq⟩ := boostAdjust_shape scorer (toLowerS query) (pySplit (toLowerS query)) od
      simp [hq]
    rw [this]
    exact hnodup
  · intro od' hod'
    obtain ⟨od, hod, hmap⟩ := List.mem_map.1 hod'
    obtain ⟨q, hq⟩ := boostAdjust_shape scorer (toLowerS query) (pySplit (toLowerS query)) od
    obtain ⟨hid, hprod⟩ := hinv od hod
    rw [← hmap, hq]
    exact ⟨hid, hprod⟩
  · intro od' hod'
    obtain ⟨od, hod, hmap⟩ := List.mem_map.1 hod'
    rcases boostAdjust_score_cases scorer (toLowerS query) (pySplit (toLowerS query)) od
      with hc | hc
    · rw [← hmap, hc]; exact hnn od hod
    · rw [← hmap, hc]
      have := hnn od hod
      simpa using mul_nonneg this (by norm_num : (0:ℚ) ≤ 6/5)

theorem adaptiveCutoff_sublist (l : List DealResult) :
    (adaptiveCutoff l).Sublist l := by
  cases l with
  | nil => simp [adaptiveCutoff]
  | cons d0 rest => exact List.filter_sublist _

theorem finalizeResults_sublist_sorted (topk : ℕ) (l : List DealResult) :
    (finalizeResults topk l).Sublist ((sortDealsDesc l).take topk) :=
  adaptiveCutoff_sublist _

theorem mem_finalizeResults (topk : ℕ) (l : List DealResult) {d : DealResult}
    (h : d ∈ finalizeResults topk l) : d ∈ l := by
  have h1 : d ∈ (sortDealsDesc l).take topk :=
    (finalizeResults_sublist_sorted topk l).subset h
  have h2 : d ∈ sortDealsDesc l := (List.take_sublist _ _).subset h1
  exact (sortDealsDesc_perm l).mem_iff.1 h2

theorem finalizeResults_nodup (topk : ℕ) (l : List DealResult)
    (h : (l.map DealResult.offer_id).Nodup) :
    ((finalizeResults topk l).map DealResult.offer_id).Nodup := by
  have hperm : ((sortDealsDesc l).map DealResult.offer_id).Nodup :=
    (((sortDealsDesc_perm l).map DealResult.offer_id).nodup_iff).2 h
  have hsub : (finalizeResults topk l).Sublist (sortDealsDesc l) :=
    (finalizeResults_sublist_sorted topk l).trans (List.take_sublist _ _)
  exact (hsub.map DealResult.offer_id).nodup hperm

theorem finalizeResults_sorted (topk : ℕ) (l : List DealResult) :
    (finalizeResults topk l).Pairwise (fun a b => b.score ≤ a.score) := by
  have h1 : ((sortDealsDesc l).take topk).Pairwise (fun a b => b.score ≤ a.score) :=
    (sortDealsDesc_sorted l).sublist (List.take_sublist _ _)
  exact h1.sublist (finalizeResults_sublist_sorted topk l)

theorem finalizeResults_length (topk : ℕ) (l : List DealResult) :
    (finalizeResults topk l).length ≤ topk := by
  have h1 := (finalizeResults_sublist_sorted topk l).length_le
  have h2 : ((sortDealsDesc l).take topk).length ≤ topk := by
    simp [List.length_take]
  omega

theorem dealsProps_values {X : List (Str × DealResult)} (h : DealsProps X) :
    ((X.map (·.2)).map DealResult.offer_id).Nodup ∧
    (∀ d ∈ X.map (·.2), 0 ≤ d.score) ∧
    (∀ d ∈ X.map (·.2), ∀ p ∈ d.matching_products, p.offer_id = d.offer_id) := by
  obtain ⟨hnodup, hinv, hnn⟩ := h
  refine ⟨?_, ?_, ?_⟩
  · rw [List.map_map]
    have heq : X.map (DealResult.offer_id ∘ (·.2)) = X.map Prod.fst :=
      List.map_congr_left fun od hod => (hinv od hod).1
    rw [heq]
    exact hnodup
  · intro d hd
    obtain ⟨od, hod, rfl⟩ := List.mem_map.1 hd
    exact hnn od hod
  · intro d hd
    obtain ⟨od, hod, rfl⟩ := List.mem_map.1 hd
    intro p hp
    obtain ⟨hid, hprod⟩ := hinv od hod
    exact (hprod p hp).trans hid.symm

theorem pipeline_deals_props (records : List SearchRecord)
    (hits : List (ℕ × ℚ × List Source)) (hs : ∀ x ∈ hits, 0 ≤ x.2.1)
    (b1 b2 : Bool) (c1 c2 t : List (Str × ℕ)) (scorer : Str → Str → ℚ) (query : Str) :
    DealsProps (applyBoost scorer query
      (if b1 then applyDensity c1 t (hits.foldl (addHit records) [])
       else if b2 then applyDensity c2 t (hits.foldl (addHit records) [])
       else hits.foldl (addHit records) [])) := by
  have hg := grouped_props records hits hs
  apply applyBoost_props
  split
  · exact applyDensity_props c1 t _ hg
  · split
    · exact applyDensity_props c2 t _ hg
    · exact hg

theorem searchPipeline_shape (scorer : Str → Str → ℚ) (smFn : ℕ → List (ℕ × ℚ))
    (query : Str) (records : List SearchRecord) (topk : ℕ) :
    ∃ l : List DealResult,
      (l.map DealResult.offer_id).Nodup ∧ (∀ d ∈ l, 0 ≤ d.score) ∧
      (∀ d ∈ l, ∀ p ∈ d.matching_products, p.offer_id = d.offer_id) ∧
      searchPipeline scorer smFn query records topk = finalizeResults topk l := by
  have hhits : ∀ x ∈ (buildModeScores (keywordSearch query records (fetchK topk))
      (fuzzySearch scorer query records 60 (fetchK topk)) (smFn (fetchK topk))).map
      (fun p => (p.1, compositeScore p.2, p.2.sources)), 0 ≤ x.2.1 := by
    intro x hx
    obtain ⟨p, hp, hmap⟩ := List.mem_map.1 hx
    rw [← hmap]
    exact compositeScore_nonneg (buildModeScores_ok _ _ _ p hp)
  have hprops := pipeline_deals_props records _ hhits
    (!(productCounts records (keywordSearch query records (fetchK topk))).isEmpty)
    (!(productCountsStrong records (fuzzySearch scorer query records 60 (fetchK topk))).isEmpty)
    (productCounts records (keywordSearch query records (fetchK topk)))
    (productCountsStrong records (fuzzySearch scorer query records 60 (fetchK topk)))
    (offerProductCounts records) scorer query
  obtain ⟨h1, h2, h3⟩ := dealsProps_values hprops
  exact ⟨_, h1, h2, h3, rfl⟩

theorem search_shape (scorer : Str → Str → ℚ) (smFn : ℕ → List (ℕ × ℚ))
    (query : Str) (records : List SearchRecord) (topk : ℕ) :
    search scorer smFn query records topk = [] ∨
    ∃ l : List DealResult,
      (l.map DealResult.offer_id).Nodup ∧ (∀ d ∈ l, 0 ≤ d.score) ∧
      (∀ d ∈ l, ∀ p ∈ d.matching_products, p.offer_id = d.offer_id) ∧
      search scorer smFn query records topk = finalizeResults topk l := by
  unfold search
  split
  · left; rfl
  · right; exact searchPipeline_shape scorer smFn query records topk

theorem finalizeResults_cutoff (topk : ℕ) (l : List DealResult)
    (hnn : ∀ d ∈ l, 0 ≤ d.score) :
    ∀ d0, (finalizeResults topk l).head? = some d0 →
    ∀ d ∈ finalizeResults topk l,
      d0.score * (if 1/2 ≤ d0.score then 2/5 else 7/10) ≤ d.score := by
  unfold finalizeResults
  cases hk : (sortDealsDesc l).take topk with
  | nil => simp [adaptiveCutoff]
  | cons e0 rest =>
    have he0l : e0 ∈ l := by
      have hmem : e0 ∈ (sortDealsDesc l).take topk := by
        rw [hk]; exact List.mem_cons_self e0 rest
      exact (sortDealsDesc_perm l).mem_iff.1 ((List.take_sublist _ _).subset hmem)
    have he0 : 0 ≤ e0.score := hnn e0 he0l
    have hratio1 : (if (1:ℚ)/2 ≤ e0.score then (2:ℚ)/5 else 7/10) ≤ 1 := by
      split <;> norm_num
    have hsurv : e0.score * (if (1:ℚ)/2 ≤ e0.score then (2:ℚ)/5 else 7/10) ≤ e0.score :=
      mul_le_of_le_one_right he0 hratio1
    simp only [adaptiveCutoff, List.filter_cons, decide_eq_true_eq, if_pos hsurv]
    intro d0 hd0 d hd
    have hd0e : d0 = e0 := by
      have := hd0
      simp at this
      exact this.symm
    subst hd0e
    rcases List.mem_cons.1 hd with rfl | hd
    · exact hsurv
    · exact of_decide_eq_true (List.mem_filter.1 hd).2

/-- C7: every offer_id in the returned sequence is distinct, and every
record in a deal's matching_products carries that deal's offer_id. -/
theorem C7_unique_offer_ids_and_ownership (scorer : Str → Str → ℚ)
    (smFn : ℕ → List (ℕ × ℚ)) (query : Str) (records : List SearchRecord)
    (topk : ℕ) :
    ((search scorer smFn query records topk).map DealResult.offer_id).Nodup ∧
    ∀ d ∈ search scorer smFn query records topk,
      ∀ p ∈ d.matching_products, p.offer_id = d.offer_id := by
  rcases search_shape scorer smFn query records topk with h | ⟨l, hn, _, hown, heq⟩
  · rw [h]; exact ⟨by simp, by simp⟩
  · rw [heq]
    exact ⟨finalizeResults_nodup topk l hn,
      fun d hd p hp => hown d (mem_finalizeResults topk l hd) p hp⟩

/-- C5: the returned sequence is sorted by score non-increasing, has at most
top_k entries, and, with top the score of the first returned deal, every
returned score is at least top * 0.4 when top is at least 0.5, and at least
top * 0.7 otherwise. -/
theorem C5_sorted_capped_cutoff (scorer : Str → Str → ℚ)
    (smFn : ℕ → List (ℕ × ℚ)) (query : Str) (records : List SearchRecord)
    (topk : ℕ) :
    (search scorer smFn query records topk).Pairwise (fun a b => b.score ≤ a.score) ∧
    (search scorer smFn query records topk).length ≤ topk ∧
    ∀ d0, (search scorer smFn query records topk).head? = some d0 →
      ∀ d ∈ search scorer smFn query records topk,
        d0.score * (if 1/2 ≤ d0.score then 2/5 else 7/10) ≤ d.score := by
  rcases search_shape scorer smFn query records topk with h | ⟨l, _, hnn, _, heq⟩
  · rw [h]
    exact ⟨List.Pairwise.nil, by simp, by simp⟩
  · rw [heq]
    exact ⟨finalizeResults_sorted topk l, finalizeResults_length topk l,
      finalizeResults_cutoff topk l hnn⟩

theorem startsList_iff : ∀ w s : Str, startsList w s = true ↔ w <+: s := by
  intro w
  induction w with
  | nil => intro s; simp [startsList, List.nil_prefix]
  | cons a w ih =>
    intro s
    cases s with
    | nil => simp [startsList]
    | cons b s =>
      simp only [startsList, Bool.and_eq_true, beq_iff_eq, List.cons_prefix_cons]
      exact and_congr Iff.rfl (ih s)

theorem isSubstr_iff (w : Str) : ∀ s : Str, isSubstr w s = true ↔ w <:+: s := by
  intro s
  induction s with
  | nil =>
    simp only [isSubstr, List.infix_nil, startsList_iff, List.prefix_nil]
  | cons c rest ih =>
    simp only [isSubstr, Bool.or_eq_true, startsList_iff, ih, List.infix_cons_iff]

theorem pySplit_mem_spec : ∀ (s : Str) (t : Str), t ∈ pySplit s →
    t ≠ [] ∧ (∀ c ∈ t, ¬isWS c = true) ∧ t <:+: s := by
  intro s
  induction s using pySplit.induct with
  | case1 => simp [pySplit]
  | case2 c rest hws ih =>
    intro t ht
    rw [pySplit, if_pos hws] at ht
    obtain ⟨hne, hchars, hinf⟩ := ih t ht
    exact ⟨hne, hchars, hinf.trans (List.infix_cons (List.infix_refl rest))⟩
  | case3 c rest hws ih =>
    intro t ht
    rw [pySplit, if_neg hws] at ht
    rcases List.mem_cons.1 ht with rfl | ht
    · refine ⟨by simp, ?_, ?_⟩
      · intro x hx
        rcases List.mem_cons.1 hx with rfl | hx
        · simpa using hws
        · have := List.mem_takeWhile_imp hx
          simpa using this
      · apply List.IsPrefix.isInfix
        rw [List.cons_prefix_cons]
        exact ⟨rfl, List.takeWhile_prefix _⟩
    · obtain ⟨hne, hchars, hinf⟩ := ih t ht
      refine ⟨hne, hchars, List.IsInfix.trans hinf ?_⟩
      exact List.IsInfix.trans (List.dropWhile_suffix _).isInfix
        (List.infix_cons (List.infix_refl rest))

/-- A token of the corpus vocabulary of a record is in particular a
substring of that record's lowered search_text. -/
theorem vocab_token_isSubstr {w : Str} {r : SearchRecord}
    (h : w ∈ pySplit (toLowerS r.search_text)) :
    isSubstr w (toLowerS r.search_text) = true := by
  rw [isSubstr_iff]
  exact (pySplit_mem_spec _ w h).2.2

/-- C2: when the keyword retriever returns nothing, no fuzzy score reaches
80, and either no lowered query token is a substring of any record's
lowered search_text or no such token occurs in the corpus vocabulary (the
lowered whitespace tokens of the records' search_text), search returns the
empty sequence. -/
theorem C2_gibberish_gate (scorer : Str → Str → ℚ) (smFn : ℕ → List (ℕ × ℚ))
    (query : Str) (records : List SearchRecord) (topk : ℕ)
    (h1 : keywordSearch query records (fetchK topk) = [])
    (h2 : ∀ p ∈ fuzzySearch scorer query records 60 (fetchK topk), p.2 < 80)
    (h3 : (∀ w ∈ pySplit (toLowerS query), ∀ r ∈ records,
             ¬isSubstr w (toLowerS r.search_text) = true) ∨
          (∀ w ∈ pySplit (toLowerS query), ∀ r ∈ records,
             w ∉ pySplit (toLowerS r.search_text))) :
    search scorer smFn query records topk = [] := by
  have hvocab : ∀ w ∈ pySplit (toLowerS query), ∀ r ∈ records,
      w ∉ pySplit (toLowerS r.search_text) := by
    rcases h3 with h3 | h3
    · intro w hw r hr hmem
      exact h3 w hw r hr (vocab_token_isSubstr hmem)
    · exact h3
  unfold search
  rw [if_pos]
  unfold gibberishGate
  rw [Bool.and_eq_true, Bool.and_eq_true]
  refine ⟨⟨?_, ?_⟩, ?_⟩
  · rw [h1]; rfl
  · simp only [Bool.not_eq_true', List.any_eq_false, decide_eq_true_eq]
    intro p hp
    exact not_le.2 (h2 p hp)
  · rw [Bool.not_eq_true', corpusHasQueryWord, List.any_eq_false]
    intro w hw
    intro hcon
    obtain ⟨r, hr, hcont⟩ := List.any_eq_true.1 hcon
    have hmem := hvocab w hw r hr
    exact hmem (by simpa using hcont)

/-- Witness for C2: the gate hypotheses hold at a concrete gibberish query
over a one-record corpus, and search returns the empty sequence there. -/
theorem C2_gibberish_gate_witness :
    search zeroScorer emptySm ['q', 'q'] [sampleRecord] 20 = [] := by
  apply C2_gibberish_gate
  · simp [keywordSearch, pySplit, isWS, toLowerS, sampleRecord, isSubstr, startsList,
      sortPairsDesc, fetchK]
  · intro p hp
    norm_num [fuzzySearch, extractMatches, zeroScorer, toLowerS, sampleRecord,
      sortPairsDesc, fetchK] at hp
  · right
    simp [pySplit, isWS, toLowerS, sampleRecord]

theorem foldl_max_init_le (l : List ℚ) : ∀ a : ℚ, a ≤ l.foldl max a := by
  induction l with
  | nil => intro a; exact le_refl a
  | cons x xs ih => intro a; exact le_trans (le_max_left a x) (ih (max a x))

theorem le_foldl_max_of_mem {x : ℚ} {l : List ℚ} (h : x ∈ l) :
    ∀ a : ℚ, x ≤ l.foldl max a := by
  induction l with
  | nil => cases h
  | cons y xs ih =>
    intro a
    rw [List.foldl_cons]
    rcases List.mem_cons.1 h with rfl | h
    · exact le_trans (le_max_right a x) (foldl_max_init_le xs (max a x))
    · exact ih h (max a y)

theorem foldl_max_le {l : List ℚ} {b : ℚ} (h : ∀ x ∈ l, x ≤ b) :
    ∀ a : ℚ, a ≤ b → l.foldl max a ≤ b := by
  induction l with
  | nil => intro a ha; exact ha
  | cons x xs ih =>
    intro a ha
    exact ih (fun y hy => h y (List.mem_cons_of_mem x hy)) (max a x)
      (max_le ha (h x (List.mem_cons_self x xs)))

theorem wordBest_eq_spec (r : SearchRecord) (w : Str) :
    wordBest r w = specWordScore r w := by
  unfold wordBest specWordScore
  have hgen : ∀ (l : List (Str × ℚ)) (a : ℚ), 0 ≤ a →
      l.foldl (fun best fw =>
        if isSubstr w fw.1 then max best (fw.2 * (if wholeWord w fw.1 then 3/2 else 1))
        else best) a =
      (l.map fun fw => specContribution w fw.1 fw.2).foldl max a := by
    intro l
    induction l with
    | nil => intro a _; rfl
    | cons fw rest ih =>
      intro a ha
      simp only [List.foldl_cons, List.map_cons, specContribution]
      by_cases hsub : isSubstr w fw.1 = true
      · rw [if_pos hsub, if_pos hsub]
        exact ih (max a (fw.2 * if wholeWord w fw.1 = true then 3/2 else 1))
          (le_trans ha (le_max_left _ _))
      · rw [if_neg hsub, if_neg hsub, max_eq_left ha]
        exact ih a ha
  exact hgen (weightedFields r) 0 (le_refl 0)

theorem specWordScore_nonneg (r : SearchRecord) (w : Str) :
    0 ≤ specWordScore r w :=
  foldl_max_init_le _ 0

theorem specContribution_le (w field : Str) (weight : ℚ) (h : weight ≤ 3) :
    specContribution w field weight ≤ 3 * (3/2) := by
  unfold specContribution
  split
  · split
    · nlinarith
    · nlinarith
  · norm_num

theorem specWordScore_le (r : SearchRecord) (w : Str) :
    specWordScore r w ≤ 3 * (3/2) := by
  unfold specWordScore
  apply foldl_max_le
  · intro x hx
    obtain ⟨fw, hfw, rfl⟩ := List.mem_map.1 hx
    apply specContribution_le
    simp only [weightedFields, List.mem_cons] at hfw
    rcases hfw with rfl | rfl | rfl | rfl | rfl | h
    · norm_num
    · norm_num
    · norm_num
    · norm_num
    · norm_num
    · simp at h; rw [h]; norm_num
  · norm_num

theorem specWordScore_ge_half (r : SearchRecord) (w : Str)
    (h : ∃ fw ∈ weightedFields r, isSubstr w fw.1 = true) :
    1/2 ≤ specWordScore r w := by
  obtain ⟨fw, hfw, hsub⟩ := h
  have hw : 1/2 ≤ fw.2 := by
    simp only [weightedFields, List.mem_cons] at hfw
    rcases hfw with rfl | rfl | rfl | rfl | rfl | h
    · norm_num
    · norm_num
    · norm_num
    · norm_num
    · norm_num
    · simp at h; rw [h]; norm_num
  have hcontrib : 1/2 ≤ specContribution w fw.1 fw.2 := by
    unfold specContribution
    rw [if_pos hsub]
    split
    · nlinarith
    · nlinarith
  exact le_trans hcontrib (le_foldl_max_of_mem
    (List.mem_map.2 ⟨fw, hfw, rfl⟩) 0)

theorem toLowerS_nil_iff {s : Str} : toLowerS s = [] ↔ s = [] := by
  simp [toLowerS]

theorem toLowerS_joinStrs : ∀ ps : List Str,
    toLowerS (joinStrs ps) = joinStrs (ps.map toLowerS) := by
  intro ps
  induction ps with
  | nil => rfl
  | cons p ps ih =>
    simp only [joinStrs, List.map_cons]
    by_cases hp : p = []
    · rw [if_pos hp, if_pos (toLowerS_nil_iff.2 hp), ih]
    · rw [if_neg hp, if_neg (fun h => hp (toLowerS_nil_iff.1 h))]
      cases hj : joinStrs ps with
      | nil =>
        have h2 : joinStrs (ps.map toLowerS) = [] := by rw [← ih, hj]; rfl
        rw [h2]
      | cons x xs =>
        have h2 : joinStrs (ps.map toLowerS) = toLowerS (x :: xs) := by rw [← ih, hj]
        rw [h2]
        show toLowerS (p ++ ' ' :: x :: xs) =
          (match toLowerS (x :: xs) with
            | [] => toLowerS p
            | q => toLowerS p ++ ' ' :: q)
        have hlow : toLowerS (x :: xs) = Char.toLower x :: toLowerS xs := rfl
        rw [hlow]
        show toLowerS (p ++ ' ' :: x :: xs) =
          toLowerS p ++ ' ' :: Char.toLower x :: toLowerS xs
        simp [toLowerS, List.map_append]

theorem prefix_append_singleton {s : Char} :
    ∀ {w A B : Str}, s ∉ w → w <+: A ++ s :: B → w <+: A := by
  intro w A
  induction A generalizing w with
  | nil =>
    intro B hs h
    cases w with
    | nil => exact List.nil_prefix
    | cons a w2 =>
      rw [List.nil_append, List.cons_prefix_cons] at h
      obtain ⟨rfl, -⟩ := h
      exact absurd (List.mem_cons_self _ _) hs
  | cons a A ih =>
    intro B hs h
    cases w with
    | nil => exact List.nil_prefix
    | cons b w2 =>
      rw [List.cons_append, List.cons_prefix_cons] at h
      obtain ⟨rfl, h2⟩ := h
      rw [List.cons_prefix_cons]
      exact ⟨rfl, ih (fun hmem => hs (List.mem_cons_of_mem _ hmem)) h2⟩

theorem infix_append_singleton {s : Char} :
    ∀ {A : Str} {w B : Str}, s ∉ w → w <:+: A ++ s :: B → w <:+: A ∨ w <:+: B := by
  intro A
  induction A with
  | nil =>
    intro w B hs h
    rw [List.nil_append, List.infix_cons_iff] at h
    rcases h with h | h
    · left
      cases w with
      | nil => exact List.nil_prefix.isInfix
      | cons a w2 =>
        rw [List.cons_prefix_cons] at h
        obtain ⟨rfl, -⟩ := h
        exact absurd (List.mem_cons_self _ _) hs
    · right; exact h
  | cons a A ih =>
    intro w B hs h
    rw [List.cons_append, List.infix_cons_iff] at h
    rcases h with h | h
    · left
      have h2 : w <+: (a :: A) ++ s :: B := by rwa [List.cons_append]
      exact (prefix_append_singleton hs h2).isInfix
    · rcases ih hs h with h2 | h2
      · left; exact h2.trans (List.infix_cons (List.infix_refl A))
      · right; exact h2

theorem infix_joinStrs {w : Str} (hw : w ≠ []) (hch : ' ' ∉ w) :
    ∀ ps : List Str, w <:+: joinStrs ps → ∃ p ∈ ps, w <:+: p := by
  intro ps
  induction ps with
  | nil =>
    intro h
    simp only [joinStrs, List.infix_nil] at h
    exact absurd h hw
  | cons p ps ih =>
    intro h
    simp only [joinStrs] at h
    by_cases hp : p = []
    · rw [if_pos hp] at h
      obtain ⟨q, hq, hinf⟩ := ih h
      exact ⟨q, List.mem_cons_of_mem _ hq, hinf⟩
    · rw [if_neg hp] at h
      cases hj : joinStrs ps with
      | nil =>
        rw [hj] at h
        exact ⟨p, List.mem_cons_self _ _, h⟩
      | cons x xs =>
        rw [hj] at h
        have h2 : w <:+: p ++ ' ' :: x :: xs := h
        rcases infix_append_singleton hch h2 with h3 | h3
        · exact ⟨p, List.mem_cons_self _ _, h3⟩
        · have h4 : w <:+: joinStrs ps := by rw [hj]; exact h3
          obtain ⟨q, hq, hinf⟩ := ih h4
          exact ⟨q, List.mem_cons_of_mem _ hq, hinf⟩

theorem admitted_word_field {r : SearchRecord} {w : Str}
    (hw : w ≠ []) (hws : ∀ c ∈ w, ¬isWS c = true)
    (hst : r.search_text = build_search_text r)
    (hsub : isSubstr w (toLowerS r.search_text) = true) :
    ∃ fw ∈ weightedFields r, isSubstr w fw.1 = true := by
  have hsp : ' ' ∉ w := fun hmem => hws ' ' hmem (by decide)
  rw [hst] at hsub
  rw [isSubstr_iff] at hsub
  unfold build_search_text at hsub
  rw [toLowerS_joinStrs] at hsub
  obtain ⟨p, hp, hinf⟩ := infix_joinStrs hw hsp _ hsub
  simp only [List.map_cons, List.map_nil, List.mem_cons, List.not_mem_nil,
    or_false] at hp
  rcases hp with rfl | rfl | rfl | rfl | rfl | rfl
  · exact ⟨(toLowerS r.offer_name, 3), by simp [weightedFields],
      (isSubstr_iff _ _).2 hinf⟩
  · exact ⟨(toLowerS r.product_name, 2), by simp [weightedFields],
      (isSubstr_iff _ _).2 hinf⟩
  · exact ⟨(toLowerS r.offer_description, 1), by simp [weightedFields],
      (isSubstr_iff _ _).2 hinf⟩
  · exact ⟨(toLowerS r.product_department, 1/2), by simp [weightedFields],
      (isSubstr_iff _ _).2 hinf⟩
  · exact ⟨(toLowerS r.product_shelf, 1/2), by simp [weightedFields],
      (isSubstr_iff _ _).2 hinf⟩
  · exact ⟨(toLowerS r.offer_category, 1/2), by simp [weightedFields],
      (isSubstr_iff _ _).2 hinf⟩

theorem sum_ge_const {l : List ℚ} {c : ℚ} (h : ∀ x ∈ l, c ≤ x) :
    l.length * c ≤ l.sum := by
  induction l with
  | nil => simp
  | cons x xs ih =>
    have hx := h x (List.mem_cons_self x xs)
    have hxs := ih fun y hy => h y (List.mem_cons_of_mem x hy)
    simp only [List.length_cons, List.sum_cons]
    push_cast
    nlinarith

theorem sum_le_const {l : List ℚ} {c : ℚ} (h : ∀ x ∈ l, x ≤ c) :
    l.sum ≤ l.length * c := by
  induction l with
  | nil => simp
  | cons x xs ih =>
    have hx := h x (List.mem_cons_self x xs)
    have hxs := ih fun y hy => h y (List.mem_cons_of_mem x hy)
    simp only [List.length_cons, List.sum_cons]
    push_cast
    nlinarith

theorem kwScore_eq_spec (words : List Str) (r : SearchRecord) :
    kwScore words r = specKwScore words r := by
  unfold kwScore specKwScore
  congr 1
  exact congrArg List.sum (List.map_congr_left fun w _ => wordBest_eq_spec r w)

theorem kwScore_bounds {words : List Str} {r : SearchRecord} (hne : words ≠ [])
    (hW : ∀ w ∈ words, ∃ fw ∈ weightedFields r, isSubstr w fw.1 = true) :
    0 < kwScore words r ∧ kwScore words r ≤ 1 := by
  rw [kwScore_eq_spec]
  unfold specKwScore
  have hlen : 1 ≤ words.length := List.length_pos.2 hne
  have hlenQ : (1 : ℚ) ≤ (words.length : ℚ) := by exact_mod_cast hlen
  have hden : (0 : ℚ) < (words.length : ℚ) * 3 * (3/2) := by nlinarith
  have hlow : ((words.map (specWordScore r)).length : ℚ) * (1/2) ≤
      (words.map (specWordScore r)).sum := by
    apply sum_ge_const
    intro x hx
    obtain ⟨w, hwmem, rfl⟩ := List.mem_map.1 hx
    exact specWordScore_ge_half r w (hW w hwmem)
  have hhigh : (words.map (specWordScore r)).sum ≤
      ((words.map (specWordScore r)).length : ℚ) * (3 * (3/2)) := by
    apply sum_le_const
    intro x hx
    obtain ⟨w, hwmem, rfl⟩ := List.mem_map.1 hx
    exact specWordScore_le r w
  rw [List.length_map] at hlow hhigh
  constructor
  · apply div_pos _ hden
    nlinarith
  · rw [div_le_one hden]
    nlinarith

theorem mem_keywordSearch {query : Str} {records : List SearchRecord}
    {topk : ℕ} {p : ℕ × ℚ} (h : p ∈ keywordSearch query records topk) :
    ∃ r, records.get? p.1 = some r ∧ pySplit (toLowerS query) ≠ [] ∧
      (∀ w ∈ pySplit (toLowerS query), isSubstr w (toLowerS r.search_text) = true) ∧
      p.2 = kwScore (pySplit (toLowerS query)) r := by
  unfold keywordSearch at h
  by_cases hne : (pySplit (toLowerS query)).isEmpty
  · rw [if_pos hne] at h
    cases h
  · rw [if_neg hne] at h
    have h1 : p ∈ sortPairsDesc ((records.enum.filter
        (fun ir => (pySplit (toLowerS query)).all
          fun w => isSubstr w (toLowerS ir.2.search_text))).map
        fun ir => (ir.1, kwScore (pySplit (toLowerS query)) ir.2)) :=
      (List.take_sublist _ _).subset h
    have h2 := (sortPairsDesc_perm _).mem_iff.1 h1
    obtain ⟨ir, hir, hmap⟩ := List.mem_map.1 h2
    have h3 := List.mem_filter.1 hir
    have h4 : records.get? ir.1 = some ir.2 := by
      have := List.mem_enum_iff_getElem?.1 h3.1
      rwa [← List.get?_eq_getElem?] at this
    refine ⟨ir.2, by rw [← hmap]; exact h4, by simpa using hne, ?_, by rw [← hmap]⟩
    intro w hw
    exact List.all_eq_true.1 h3.2 w hw

/-- C3: over a well-formed record set, keyword_search returns only records
whose lowered search_text contains every lowered query word as a substring,
and each returned score equals the spec's formula (sum over words of the
maximum per-field weighted contribution with the whole-word bonus, divided
by len(words) * 3.0 * 1.5), a value in (0, 1]. -/
theorem C3_keyword_search_spec (query : Str) (records : List SearchRecord)
    (topk : ℕ) (hwf : WellFormed records) :
    ∀ p ∈ keywordSearch query records topk,
      ∃ r, records.get? p.1 = some r ∧
        (∀ w ∈ pySplit (toLowerS query), isSubstr w (toLowerS r.search_text) = true) ∧
        p.2 = specKwScore (pySplit (toLowerS query)) r ∧ 0 < p.2 ∧ p.2 ≤ 1 := by
  intro p hp
  obtain ⟨r, hget, hne, hall, hscore⟩ := mem_keywordSearch hp
  have hrmem : r ∈ records := by
    rw [List.get?_eq_getElem?] at hget
    obtain ⟨hlt, heq⟩ := List.getElem?_eq_some_iff.1 hget
    exact heq ▸ List.getElem_mem hlt
  have hW : ∀ w ∈ pySplit (toLowerS query),
      ∃ fw ∈ weightedFields r, isSubstr w fw.1 = true := by
    intro w hw
    obtain ⟨hwne, hwchars, -⟩ := pySplit_mem_spec _ w hw
    exact admitted_word_field hwne hwchars (hwf r hrmem) (hall w hw)
  obtain ⟨hpos, hle⟩ := kwScore_bounds hne hW
  exact ⟨r, hget, hall, by rw [hscore, kwScore_eq_spec], by rw [hscore]; exact hpos,
    by rw [hscore]; exact hle⟩

/-- Witness for C3: the one-record corpus is well formed, and the theorem
applies to the query "a" there. -/
theorem C3_keyword_search_spec_witness :
    WellFormed [sampleRecord] ∧
    ∀ p ∈ keywordSearch ['a'] [sampleRecord] 20,
      ∃ r, [sampleRecord].get? p.1 = some r ∧
        (∀ w ∈ pySplit (toLowerS ['a']), isSubstr w (toLowerS r.search_text) = true) ∧
        p.2 = specKwScore (pySplit (toLowerS ['a'])) r ∧ 0 < p.2 ∧ p.2 ≤ 1 := by
  have hwf : WellFormed [sampleRecord] := by
    intro r hr
    simp only [List.mem_singleton] at hr
    subst hr
    rfl
  exact ⟨hwf, C3_keyword_search_spec ['a'] [sampleRecord] 20 hwf⟩

theorem lookupA_upsert_self {α β : Type} [DecidableEq α] (f : Option β → β)
    (k : α) : ∀ l : List (α × β), lookupA k (upsert f k l) = some (f (lookupA k l)) := by
  intro l
  induction l with
  | nil => simp [upsert, lookupA]
  | cons p rest ih =>
    by_cases hp : p.1 = k
    · simp [upsert, lookupA, hp]
    · simp [upsert, lookupA, hp, ih]

theorem lookupA_upsert_ne {α β : Type} [DecidableEq α] (f : Option β → β)
    {k k' : α} (h : k' ≠ k) : ∀ l : List (α × β),
    lookupA k' (upsert f k l) = lookupA k' l := by
  have h2 : ¬k = k' := fun hh => h hh.symm
  intro l
  induction l with
  | nil => simp [upsert, lookupA, h2]
  | cons p rest ih =>
    by_cases hp : p.1 = k
    · simp [upsert, lookupA, hp, h2]
    · by_cases hq : p.1 = k'
      · simp [upsert, lookupA, hp, hq, h]
      · simp [upsert, lookupA, hp, hq, ih]

theorem lookupA_eq_none_iff {α β : Type} [DecidableEq α] (k : α) :
    ∀ l : List (α × β), lookupA k l = none ↔ k ∉ l.map Prod.fst := by
  intro l
  induction l with
  | nil => simp [lookupA]
  | cons p rest ih =>
    by_cases hp : p.1 = k
    · simp [lookupA, hp]
    · have h3 : ¬k = p.1 := fun hh => hp hh.symm
      simp [lookupA, hp, ih, h3]

theorem lookupA_of_mem_nodup {α β : Type} [DecidableEq α] {k : α} {v : β} :
    ∀ {l : List (α × β)}, (l.map Prod.fst).Nodup → (k, v) ∈ l →
    lookupA k l = some v := by
  intro l
  induction l with
  | nil => intro _ h; cases h
  | cons p rest ih =>
    intro hnd hmem
    rw [List.map_cons, List.nodup_cons] at hnd
    rcases List.mem_cons.1 hmem with rfl | hmem
    · simp [lookupA]
    · have hk : p.1 ≠ k := by
        intro hh
        exact hnd.1 (hh ▸ (List.mem_map.2 ⟨(k, v), hmem, rfl⟩))
      simp [lookupA, hk, ih hnd.2 hmem]

theorem foldl_step_lookup {β : Type} (g : ℕ × ℚ → Option β → β) :
    ∀ (l : List (ℕ × ℚ)) (acc : List (ℕ × β)) (i : ℕ), (l.map Prod.fst).Nodup →
      lookupA i (l.foldl (fun a x => upsert (g x) x.1 a) acc) =
        (match lookupA i l with
          | none => lookupA i acc
          | some s => some (g (i, s) (lookupA i acc))) := by
  intro l
  induction l with
  | nil => intro acc i _; simp [lookupA]
  | cons x rest ih =>
    intro acc i hnd
    obtain ⟨x1, x2⟩ := x
    rw [List.map_cons, List.nodup_cons] at hnd
    rw [List.foldl_cons]
    by_cases hix : i = x1
    · subst hix
      have hnone : lookupA i rest = none := (lookupA_eq_none_iff i rest).2 hnd.1
      rw [ih _ i hnd.2, hnone, lookupA_upsert_self]
      simp [lookupA]
    · rw [ih _ i hnd.2, lookupA_upsert_ne _ hix]
      have h3 : ¬x1 = i := fun hh => hix hh.symm
      simp [lookupA, h3]

theorem buildModeScores_keys_nodup (kwRes fzRes smRes : List (ℕ × ℚ)) :
    ((buildModeScores kwRes fzRes smRes).map Prod.fst).Nodup := by
  unfold buildModeScores
  have h1 : ∀ (l : List (ℕ × ℚ)) (acc : List (ℕ × ModeScores)),
      (acc.map Prod.fst).Nodup → ((l.foldl kwStep acc).map Prod.fst).Nodup := by
    intro l acc h
    exact foldl_preserves (P := fun a : List (ℕ × ModeScores) => (a.map Prod.fst).Nodup)
      (fun d x hd => nodup_keys_upsert hd) l acc h
  have h2 : ∀ (l : List (ℕ × ℚ)) (acc : List (ℕ × ModeScores)),
      (acc.map Prod.fst).Nodup → ((l.foldl fzStep acc).map Prod.fst).Nodup := by
    intro l acc h
    exact foldl_preserves (P := fun a : List (ℕ × ModeScores) => (a.map Prod.fst).Nodup)
      (fun d x hd => nodup_keys_upsert hd) l acc h
  have h3 : ∀ (l : List (ℕ × ℚ)) (acc : List (ℕ × ModeScores)),
      (acc.map Prod.fst).Nodup → ((l.foldl smStep acc).map Prod.fst).Nodup := by
    intro l acc h
    exact foldl_preserves (P := fun a : List (ℕ × ModeScores) => (a.map Prod.fst).Nodup)
      (fun d x hd => nodup_keys_upsert hd) l acc h
  exact h3 _ _ (h2 _ _ (h1 _ _ (by simp)))

theorem buildModeScores_lookup (kwRes fzRes smRes : List (ℕ × ℚ))
    (hkw : (kwRes.map Prod.fst).Nodup) (hfz : (fzRes.map Prod.fst).Nodup)
    (hsm : (smRes.map Prod.fst).Nodup) (i : ℕ) :
    lookupA i (buildModeScores kwRes fzRes smRes) =
      expectedMS (lookupA i kwRes) (lookupA i fzRes) (lookupA i smRes) := by
  unfold buildModeScores
  have hs1 : lookupA i (kwRes.foldl kwStep []) =
      (lookupA i kwRes).map fun s => ({ kw := some (max 0 s) } : ModeScores) := by
    have := foldl_step_lookup
      (fun (x : ℕ × ℚ) (prev : Option ModeScores) =>
        let ms := prev.getD {}
        { ms with kw := some (max (ms.kw.getD 0) x.2) }) kwRes [] i hkw
    rw [show kwStep = (fun a (x : ℕ × ℚ) => upsert
      (fun prev => let ms := prev.getD {}
                   { ms with kw := some (max (ms.kw.getD 0) x.2) }) x.1 a) from rfl]
    rw [this]
    cases lookupA i kwRes <;> simp [lookupA]
  have hs2 : lookupA i (fzRes.foldl fzStep (kwRes.foldl kwStep [])) =
      (match lookupA i fzRes with
        | none => lookupA i (kwRes.foldl kwStep [])
        | some s => some { ((lookupA i (kwRes.foldl kwStep [])).getD {}) with
            fz := some (max (((lookupA i (kwRes.foldl kwStep [])).getD {}).fz.getD 0)
              (s / 100)) }) := by
    have := foldl_step_lookup
      (fun (x : ℕ × ℚ) (prev : Option ModeScores) =>
        let ms := prev.getD {}
        { ms with fz := some (max (ms.fz.getD 0) (x.2 / 100)) })
      fzRes (kwRes.foldl kwStep []) i hfz
    rw [show fzStep = (fun a (x : ℕ × ℚ) => upsert
      (fun prev => let ms := prev.getD {}
                   { ms with fz := some (max (ms.fz.getD 0) (x.2 / 100)) }) x.1 a) from rfl]
    rw [this]
  have hs3 := foldl_step_lookup
    (fun (x : ℕ × ℚ) (prev : Option ModeScores) =>
      let ms := prev.getD {}
      { ms with sm := some (max (ms.sm.getD 0) x.2) })
    smRes (fzRes.foldl fzStep (kwRes.foldl kwStep [])) i hsm
  rw [show smStep = (fun a (x : ℕ × ℚ) => upsert
    (fun prev => let ms := prev.getD {}
                 { ms with sm := some (max (ms.sm.getD 0) x.2) }) x.1 a) from rfl]
  rw [hs3, hs2, hs1]
  rcases hk : lookupA i kwRes with _ | k <;>
    rcases hf : lookupA i fzRes with _ | f <;>
    rcases hs : lookupA i smRes with _ | m <;>
    simp [expectedMS]

theorem keywordSearch_keys_nodup (query : Str) (records : List SearchRecord)
    (topk : ℕ) : ((keywordSearch query records topk).map Prod.fst).Nodup := by
  unfold keywordSearch
  by_cases hne : (pySplit (toLowerS query)).isEmpty
  · rw [if_pos hne]; simp
  · rw [if_neg hne]
    have h1 : ((records.enum.filter
        (fun ir => (pySplit (toLowerS query)).all
          fun w => isSubstr w (toLowerS ir.2.search_text))).map Prod.fst).Nodup := by
      have hsub : ((records.enum.filter
          (fun ir => (pySplit (toLowerS query)).all
            fun w => isSubstr w (toLowerS ir.2.search_text))).map Prod.fst).Sublist
          (records.enum.map Prod.fst) :=
        (List.filter_sublist _).map Prod.fst
      have henum : (records.enum.map Prod.fst).Nodup := by
        rw [List.enum_map_fst]
        exact List.nodup_range _
      exact hsub.nodup henum
    have h2 : (((records.enum.filter
        (fun ir => (pySplit (toLowerS query)).all
          fun w => isSubstr w (toLowerS ir.2.search_text))).map
        (fun ir => (ir.1, kwScore (pySplit (toLowerS query)) ir.2))).map Prod.fst).Nodup := by
      rw [List.map_map]
      exact h1
    have h3 := ((sortPairsDesc_perm _).map Prod.fst).nodup_iff.2 h2
    exact ((List.take_sublist _ _).map Prod.fst).nodup h3

theorem fuzzySearch_keys_nodup (scorer : Str → Str → ℚ) (query : Str)
    (records : List SearchRecord) (threshold : ℚ) (topk : ℕ) :
    ((fuzzySearch scorer query records threshold topk).map Prod.fst).Nodup := by
  unfold fuzzySearch
  have h1 : ∀ (l : List (ℕ × ℚ)) (acc : List (ℕ × ℚ)), (acc.map Prod.fst).Nodup →
      ((l.foldl (fun a p => upsert (fun prev => max (prev.getD 0) p.2) p.1 a) acc).map
        Prod.fst).Nodup := by
    intro l acc h
    exact foldl_preserves (P := fun a : List (ℕ × ℚ) => (a.map Prod.fst).Nodup)
      (fun d x hd => nodup_keys_upsert hd) l acc h
  dsimp only
  apply ((List.take_sublist _ _).map Prod.fst).nodup
  apply ((sortPairsDesc_perm _).map Prod.fst).nodup_iff.2
  exact h1 _ [] (by simp)

theorem fusion_clamped_general (kwRes fzRes smRes : List (ℕ × ℚ))
    (hkw : (kwRes.map Prod.fst).Nodup) (hfz : (fzRes.map Prod.fst).Nodup)
    (hsm : (smRes.map Prod.fst).Nodup) :
    ∀ p ∈ (buildModeScores kwRes fzRes smRes).map
      (fun q => (q.1, compositeScore q.2, q.2.sources)),
      p.2.1 = clampedFusion (lookupA p.1 kwRes) (lookupA p.1 fzRes)
        (lookupA p.1 smRes) := by
  intro p hp
  obtain ⟨q, hq, rfl⟩ := List.mem_map.1 hp
  obtain ⟨q1, q2⟩ := q
  have hlk := lookupA_of_mem_nodup (buildModeScores_keys_nodup kwRes fzRes smRes) hq
  rw [buildModeScores_lookup kwRes fzRes smRes hkw hfz hsm q1] at hlk
  rcases ha : lookupA q1 kwRes with _ | k <;>
    rcases hb : lookupA q1 fzRes with _ | f <;>
    rcases hc : lookupA q1 smRes with _ | m <;>
    rw [ha, hb, hc] at hlk <;>
    simp [expectedMS] at hlk <;>
    subst hlk <;>
    simp [compositeScore, clampedFusion, ModeScores.count]

/-- C4 (amended): for every record index in the fused mode_scores built from
the three retriever result lists, its composite score equals the claim's
formula with each present per-mode score first clamped below at zero (the
collection loops store max(0.0, score)), keeping the fuzzy division by 100,
the fuzzy cap, the multi-source bonus and the semantic-only halving. -/
theorem C4_fusion_formula (scorer : Str → Str → ℚ) (smFn : ℕ → List (ℕ × ℚ))
    (query : Str) (records : List SearchRecord) (topk : ℕ)
    (hsm : ((smFn (fetchK topk)).map Prod.fst).Nodup) :
    ∀ p ∈ (buildModeScores (keywordSearch query records (fetchK topk))
        (fuzzySearch scorer query records 60 (fetchK topk)) (smFn (fetchK topk))).map
        (fun q => (q.1, compositeScore q.2, q.2.sources)),
      p.2.1 = clampedFusion
        (lookupA p.1 (keywordSearch query records (fetchK topk)))
        (lookupA p.1 (fuzzySearch scorer query records 60 (fetchK topk)))
        (lookupA p.1 (smFn (fetchK topk))) :=
  fusion_clamped_general _ _ _
    (keywordSearch_keys_nodup query records (fetchK topk))
    (fuzzySearch_keys_nodup scorer query records 60 (fetchK topk)) hsm

/-- Counterexample to C4 as stated: a record returned by semantic search
with cosine similarity -1 (and by no other mode) gets fused score 0, while
the claim's formula (0.25 * sm, then halved for semantic-only) yields -1/8:
the loops clamp the stored score at 0, the claim's formula does not. -/
theorem C4_fusion_counterexample :
    ((buildModeScores [] [] [((0:ℕ), (-1:ℚ))]).map
      (fun q => (q.1, compositeScore q.2, q.2.sources))) =
      [(0, 0, [Source.semantic])] ∧
    claimFusion (lookupA 0 ([] : List (ℕ × ℚ))) (lookupA 0 ([] : List (ℕ × ℚ)))
      (lookupA 0 [((0:ℕ), (-1:ℚ))]) = -1/8 ∧
    (0:ℚ) ≠ -1/8 := by
  refine ⟨?_, ?_, by norm_num⟩
  · norm_num [buildModeScores, smStep, kwStep, fzStep, upsert, compositeScore,
      ModeScores.sources, ModeScores.count]
  · norm_num [claimFusion, lookupA]

/-- Witness for C4 at a concrete one-entry semantic result list. -/
theorem C4_fusion_formula_witness :
    ((sampleSm (fetchK 20)).map Prod.fst).Nodup ∧
    ∀ p ∈ (buildModeScores (keywordSearch ['a'] [sampleRecord] (fetchK 20))
        (fuzzySearch zeroScorer ['a'] [sampleRecord] 60 (fetchK 20))
        (sampleSm (fetchK 20))).map
        (fun q => (q.1, compositeScore q.2, q.2.sources)),
      p.2.1 = clampedFusion
        (lookupA p.1 (keywordSearch ['a'] [sampleRecord] (fetchK 20)))
        (lookupA p.1 (fuzzySearch zeroScorer ['a'] [sampleRecord] 60 (fetchK 20)))
        (lookupA p.1 (sampleSm (fetchK 20))) :=
  ⟨by decide, C4_fusion_formula zeroScorer sampleSm ['a'] [sampleRecord] 20 (by decide)⟩

theorem counter_fold_lookup {γ : Type} (key : γ → Str) (q : γ → Prop)
    [DecidablePred q] (oid : Str) :
    ∀ (l : List γ) (acc : List (Str × ℕ)),
      (lookupA oid (l.foldl (fun a x =>
        if q x then upsert (fun prev => prev.getD 0 + 1) (key x) a else a) acc)).getD 0 =
      (lookupA oid acc).getD 0 +
        (l.filter fun x => decide (q x) && decide (key x = oid)).length := by
  intro l
  induction l with
  | nil => intro acc; simp
  | cons x rest ih =>
    intro acc
    rw [List.foldl_cons, List.filter_cons]
    by_cases hq : q x
    · by_cases hk : key x = oid
      · rw [if_pos hq, ih, hk, lookupA_upsert_self]
        simp [hq, hk]
        omega
      · have hne : oid ≠ key x := fun hh => hk hh.symm
        rw [if_pos hq, ih, lookupA_upsert_ne _ hne]
        simp [hq, hk]
    · rw [if_neg hq, ih]
      simp [hq]

theorem productCounts_lookup (records : List SearchRecord) (res : List (ℕ × ℚ))
    (oid : Str) :
    (lookupA oid (productCounts records res)).getD 0 =
      (res.filter fun p => decide ((records.getD p.1 default).product_name ≠ []) &&
        decide ((records.getD p.1 default).offer_id = oid)).length := by
  rw [show productCounts records res = res.foldl (fun a x =>
    if (records.getD x.1 default).product_name ≠ [] then
      upsert (fun prev => prev.getD 0 + 1) ((records.getD x.1 default).offer_id) a
    else a) [] from rfl]
  rw [counter_fold_lookup (fun x : ℕ × ℚ => (records.getD x.1 default).offer_id)
    (fun x => (records.getD x.1 default).product_name ≠ []) oid res []]
  simp [lookupA]

theorem productCountsStrong_lookup (records : List SearchRecord)
    (res : List (ℕ × ℚ)) (oid : Str) :
    (lookupA oid (productCountsStrong records res)).getD 0 =
      (res.filter fun p =>
        decide ((records.getD p.1 default).product_name ≠ [] ∧ 80 ≤ p.2) &&
        decide ((records.getD p.1 default).offer_id = oid)).length := by
  rw [show productCountsStrong records res = res.foldl (fun a x =>
    if (records.getD x.1 default).product_name ≠ [] ∧ 80 ≤ x.2 then
      upsert (fun prev => prev.getD 0 + 1) ((records.getD x.1 default).offer_id) a
    else a) [] from rfl]
  rw [counter_fold_lookup (fun x : ℕ × ℚ => (records.getD x.1 default).offer_id)
    (fun x => (records.getD x.1 default).product_name ≠ [] ∧ 80 ≤ x.2) oid res []]
  simp [lookupA]

theorem offerProductCounts_lookup (records : List SearchRecord) (oid : Str) :
    (lookupA oid (offerProductCounts records)).getD 0 =
      (records.filter fun r => decide (r.product_name ≠ []) &&
        decide (r.offer_id = oid)).length := by
  rw [show offerProductCounts records = records.foldl (fun a r =>
    if r.product_name ≠ [] then
      upsert (fun prev => prev.getD 0 + 1) r.offer_id a
    else a) [] from rfl]
  rw [counter_fold_lookup (fun r : SearchRecord => r.offer_id)
    (fun r => r.product_name ≠ []) oid records []]
  simp [lookupA]

theorem filter_idx_le (records : List SearchRecord) (res : List (ℕ × ℚ))
    (hnd : (res.map Prod.fst).Nodup) (A : ℕ × ℚ → Bool) (P : SearchRecord → Bool)
    (hPdef : P default = false)
    (hA : ∀ p, A p = true → P (records.getD p.1 default) = true) :
    (res.filter A).length ≤ (records.filter P).length := by
  have hidx : ((res.filter A).map Prod.fst).Nodup :=
    ((List.filter_sublist res).map Prod.fst).nodup hnd
  have hmap : (((res.filter A).map Prod.fst).map
      (fun i => (i, records.getD i default))).Nodup :=
    hidx.map (fun i j hij => congrArg Prod.fst hij)
  have hsubset : (((res.filter A).map Prod.fst).map
      (fun i => (i, records.getD i default))) ⊆
      records.enum.filter (fun ir => P ir.2) := by
    intro y hy
    obtain ⟨i, hi, rfl⟩ := List.mem_map.1 hy
    obtain ⟨p, hp, rfl⟩ := List.mem_map.1 hi
    have hPp : P (records.getD p.1 default) = true := hA p (List.mem_filter.1 hp).2
    have hlt : p.1 < records.length := by
      by_contra hge
      rw [List.getD_eq_default] at hPp
      · exact absurd hPp (by rw [hPdef]; simp)
      · omega
    rw [List.mem_filter]
    constructor
    · rw [List.mem_enum_iff_getElem?]
      rw [List.getD_eq_getElem _ _ hlt]
      exact List.getElem?_eq_getElem hlt
    · exact hPp
  have hle := (List.subperm_of_subset hmap hsubset).length_le
  have h1 : (((res.filter A).map Prod.fst).map
      (fun i => (i, records.getD i default))).length = (res.filter A).length := by
    simp
  have h2 : (records.enum.filter (fun ir => P ir.2)).length =
      (records.filter P).length := by
    have h3 : (records.enum.map Prod.snd).filter P =
        (records.enum.filter (P ∘ Prod.snd)).map Prod.snd :=
      List.filter_map Prod.snd records.enum
    have h4 : records.filter P = (records.enum.filter (P ∘ Prod.snd)).map Prod.snd := by
      rw [← h3, List.enum_map_snd]
    rw [h4, List.length_map]
    rfl
  omega

/-- C6: with counts from either density source (keyword counts, or the
strong-fuzzy counts of the typo path), a deal whose offer has products gets
its score multiplied by exactly 0.3 + 0.7 * density, where density is
matched/total (matched positive) or 0.1 (matched zero); the multiplier lies
in (0.3, 1], so the penalty never increases a nonnegative score; total is
the number of the offer's records with a product name; offer-only deals are
unchanged. -/
theorem C6_density_penalty (records : List SearchRecord) (res : List (ℕ × ℚ))
    (counts : List (Str × ℕ)) (od : Str × DealResult)
    (hnd : (res.map Prod.fst).Nodup)
    (hcounts : counts = productCounts records res ∨
      counts = productCountsStrong records res)
    (hsc : 0 ≤ od.2.score) :
    ((lookupA od.2.offer_id (offerProductCounts records)).getD 0 =
      (records.filter fun r => decide (r.product_name ≠ []) &&
        decide (r.offer_id = od.2.offer_id)).length) ∧
    ((lookupA od.2.offer_id (offerProductCounts records)).getD 0 = 0 →
      densityAdjust counts (offerProductCounts records) od = od) ∧
    (0 < (lookupA od.2.offer_id (offerProductCounts records)).getD 0 →
      densityAdjust counts (offerProductCounts records) od =
        (od.1, { od.2 with score := od.2.score *
                              densityMult ((lookupA od.2.offer_id counts).getD 0)
                                ((lookupA od.2.offer_id (offerProductCounts records)).getD 0) }) ∧
      3/10 < densityMult ((lookupA od.2.offer_id counts).getD 0)
        ((lookupA od.2.offer_id (offerProductCounts records)).getD 0) ∧
      densityMult ((lookupA od.2.offer_id counts).getD 0)
        ((lookupA od.2.offer_id (offerProductCounts records)).getD 0) ≤ 1 ∧
      od.2.score * densityMult ((lookupA od.2.offer_id counts).getD 0)
        ((lookupA od.2.offer_id (offerProductCounts records)).getD 0) ≤ od.2.score) := by
  set oid := od.2.offer_id with hoid
  set total := (lookupA oid (offerProductCounts records)).getD 0 with htotal
  set matched := (lookupA oid counts).getD 0 with hmatched
  have htot_eq := offerProductCounts_lookup records oid
  have hml : matched ≤ total := by
    rw [hmatched, htotal, htot_eq]
    rcases hcounts with rfl | rfl
    · rw [productCounts_lookup]
      apply filter_idx_le records res hnd _ _ (by simp [default])
      intro p hp
      simp only [Bool.and_eq_true, decide_eq_true_eq] at hp ⊢
      exact ⟨hp.1, hp.2⟩
    · rw [productCountsStrong_lookup]
      apply filter_idx_le records res hnd _ _ (by simp [default])
      intro p hp
      simp only [Bool.and_eq_true, decide_eq_true_eq] at hp ⊢
      exact ⟨hp.1.1, hp.2⟩
  refine ⟨htot_eq, ?_, ?_⟩
  · intro h0
    unfold densityAdjust
    rw [← hoid, ← htotal, h0]
    simp
  · intro hpos
    have hd_pos : 0 < densityOf matched total := by
      unfold densityOf
      split
      · next hm =>
        apply div_pos
        · exact_mod_cast hm
        · exact_mod_cast hpos
      · norm_num
    have hd_le : densityOf matched total ≤ 1 := by
      unfold densityOf
      split
      · rw [div_le_one (by exact_mod_cast hpos)]
        exact_mod_cast hml
      · norm_num
    have hm_lt : 3/10 < densityMult matched total := by
      unfold densityMult
      nlinarith
    have hm_le : densityMult matched total ≤ 1 := by
      unfold densityMult
      nlinarith
    refine ⟨?_, hm_lt, hm_le, ?_⟩
    · unfold densityAdjust
      rw [← hoid, ← htotal]
      rw [if_pos hpos]
      rw [← hmatched]
      unfold densityMult densityOf
      rfl
    · nlinarith

/-- Witness for C6 at a one-product corpus where the offer's single product
was keyword-matched: density 1, multiplier 1. -/
theorem C6_density_penalty_witness :
    (([((0:ℕ), (1:ℚ))].map Prod.fst).Nodup) ∧
    (productCounts [sampleProductRecord] [((0:ℕ), (1:ℚ))] =
        productCounts [sampleProductRecord] [((0:ℕ), (1:ℚ))] ∨
      productCounts [sampleProductRecord] [((0:ℕ), (1:ℚ))] =
        productCountsStrong [sampleProductRecord] [((0:ℕ), (1:ℚ))]) ∧
    (0 ≤ ((['o'], sampleDeal) : Str × DealResult).2.score) ∧
    (0 < (lookupA (['o'], sampleDeal).2.offer_id
        (offerProductCounts [sampleProductRecord])).getD 0 →
      densityAdjust (productCounts [sampleProductRecord] [((0:ℕ), (1:ℚ))])
          (offerProductCounts [sampleProductRecord]) (['o'], sampleDeal) =
        ((['o'], sampleDeal).1, { (['o'], sampleDeal).2 with
          score := (['o'], sampleDeal).2.score *
                      densityMult ((lookupA (['o'], sampleDeal).2.offer_id
                          (productCounts [sampleProductRecord] [((0:ℕ), (1:ℚ))])).getD 0)
                        ((lookupA (['o'], sampleDeal).2.offer_id
                          (offerProductCounts [sampleProductRecord])).getD 0) }) ∧
      3/10 < densityMult ((lookupA (['o'], sampleDeal).2.offer_id
          (productCounts [sampleProductRecord] [((0:ℕ), (1:ℚ))])).getD 0)
        ((lookupA (['o'], sampleDeal).2.offer_id
          (offerProductCounts [sampleProductRecord])).getD 0) ∧
      densityMult ((lookupA (['o'], sampleDeal).2.offer_id
          (productCounts [sampleProductRecord] [((0:ℕ), (1:ℚ))])).getD 0)
        ((lookupA (['o'], sampleDeal).2.offer_id
          (offerProductCounts [sampleProductRecord])).getD 0) ≤ 1 ∧
      (['o'], sampleDeal).2.score * densityMult ((lookupA (['o'], sampleDeal).2.offer_id
          (productCounts [sampleProductRecord] [((0:ℕ), (1:ℚ))])).getD 0)
        ((lookupA (['o'], sampleDeal).2.offer_id
          (offerProductCounts [sampleProductRecord])).getD 0) ≤
        (['o'], sampleDeal).2.score) :=
  ⟨by decide, Or.inl rfl, by norm_num [sampleDeal],
    (C6_density_penalty [sampleProductRecord] [((0:ℕ), (1:ℚ))]
      (productCounts [sampleProductRecord] [((0:ℕ), (1:ℚ))]) (['o'], sampleDeal)
      (by decide) (Or.inl rfl) (by norm_num [sampleDeal])).2.2⟩

theorem MSpos_upd_kw (prev : Option ModeScores)
    (h : ∀ v, prev = some v → MSpos v) {s : ℚ} (hs : 0 < s) :
    MSpos { prev.getD {} with kw := some (max ((prev.getD {}).kw.getD 0) s) } := by
  have hrest : (∀ v, (prev.getD {}).fz = some v → 0 < v) ∧
      (∀ v, (prev.getD {}).sm = some v → 0 < v) := by
    cases prev with
    | none => simp
    | some ms => exact ⟨(h ms rfl).2.1, (h ms rfl).2.2.1⟩
  refine ⟨fun v hv => ?_, hrest.1, hrest.2, count_ge_one_of_kw (by simp)⟩
  simp only [Option.some.injEq] at hv
  subst hv
  exact lt_max_of_lt_right hs

theorem MSpos_upd_fz (prev : Option ModeScores)
    (h : ∀ v, prev = some v → MSpos v) {s : ℚ} (hs : 0 < s) :
    MSpos { prev.getD {} with fz := some (max ((prev.getD {}).fz.getD 0) s) } := by
  have hrest : (∀ v, (prev.getD {}).kw = some v → 0 < v) ∧
      (∀ v, (prev.getD {}).sm = some v → 0 < v) := by
    cases prev with
    | none => simp
    | some ms => exact ⟨(h ms rfl).1, (h ms rfl).2.2.1⟩
  refine ⟨hrest.1, fun v hv => ?_, hrest.2, count_ge_one_of_fz (by simp)⟩
  simp only [Option.some.injEq] at hv
  subst hv
  exact lt_max_of_lt_right hs

theorem MSpos_upd_sm (prev : Option ModeScores)
    (h : ∀ v, prev = some v → MSpos v) {s : ℚ} (hs : 0 < s) :
    MSpos { prev.getD {} with sm := some (max ((prev.getD {}).sm.getD 0) s) } := by
  have hrest : (∀ v, (prev.getD {}).kw = some v → 0 < v) ∧
      (∀ v, (prev.getD {}).fz = some v → 0 < v) := by
    cases prev with
    | none => simp
    | some ms => exact ⟨(h ms rfl).1, (h ms rfl).2.1⟩
  refine ⟨hrest.1, hrest.2, fun v hv => ?_, count_ge_one_of_sm (by simp)⟩
  simp only [Option.some.injEq] at hv
  subst hv
  exact lt_max_of_lt_right hs

theorem kwStep_pos (acc : List (ℕ × ModeScores)) (x : ℕ × ℚ) (hx : 0 < x.2)
    (hacc : ∀ p ∈ acc, MSpos p.2) : ∀ p ∈ kwStep acc x, MSpos p.2 := by
  unfold kwStep
  exact upsert_forall (P := fun p => MSpos p.2) hacc
    fun prev hprev => MSpos_upd_kw prev (fun v hv => hprev v hv) hx

theorem fzStep_pos (acc : List (ℕ × ModeScores)) (x : ℕ × ℚ) (hx : 0 < x.2)
    (hacc : ∀ p ∈ acc, MSpos p.2) : ∀ p ∈ fzStep acc x, MSpos p.2 := by
  unfold fzStep
  exact upsert_forall (P := fun p => MSpos p.2) hacc
    fun prev hprev => MSpos_upd_fz prev (fun v hv => hprev v hv)
      (div_pos hx (by norm_num))

theorem smStep_pos (acc : List (ℕ × ModeScores)) (x : ℕ × ℚ) (hx : 0 < x.2)
    (hacc : ∀ p ∈ acc, MSpos p.2) : ∀ p ∈ smStep acc x, MSpos p.2 := by
  unfold smStep
  exact upsert_forall (P := fun p => MSpos p.2) hacc
    fun prev hprev => MSpos_upd_sm prev (fun v hv => hprev v hv) hx

theorem buildModeScores_pos (kwRes fzRes smRes : List (ℕ × ℚ))
    (hkw : ∀ p ∈ kwRes, 0 < p.2) (hfz : ∀ p ∈ fzRes, 0 < p.2)
    (hsm : ∀ p ∈ smRes, 0 < p.2) :
    ∀ p ∈ buildModeScores kwRes fzRes smRes, MSpos p.2 := by
  unfold buildModeScores
  have h1 : ∀ p ∈ kwRes.foldl kwStep [], MSpos p.2 :=
    foldl_preserves_mem (P := fun acc => ∀ p ∈ acc, MSpos p.2)
      (fun acc x hx hacc => kwStep_pos acc x (hkw x hx) hacc) (by simp)
  have h2 : ∀ p ∈ fzRes.foldl fzStep (kwRes.foldl kwStep []), MSpos p.2 :=
    foldl_preserves_mem (P := fun acc => ∀ p ∈ acc, MSpos p.2)
      (fun acc x hx hacc => fzStep_pos acc x (hfz x hx) hacc) h1
  exact foldl_preserves_mem (P := fun acc => ∀ p ∈ acc, MSpos p.2)
    (fun acc x hx hacc => smStep_pos acc x (hsm x hx) hacc) h2

theorem compositeScore_pos {ms : ModeScores} (h : MSpos ms) :
    0 < compositeScore ms := by
  obtain ⟨hkw, hfz, hsm, hcount⟩ := h
  have hkw0 : 0 ≤ ms.kw.getD 0 := getD_nonneg fun v hv => le_of_lt (hkw v hv)
  have hfz0 : 0 ≤ ms.fz.getD 0 := getD_nonneg fun v hv => le_of_lt (hfz v hv)
  have hsm0 : 0 ≤ ms.sm.getD 0 := getD_nonneg fun v hv => le_of_lt (hsm v hv)
  have hbonus : 0 ≤ min (((ms.count : ℚ) - 1) * (1/10)) (1/5) := by
    apply le_min
    · have h1 : (1 : ℚ) ≤ (ms.count : ℚ) := by exact_mod_cast hcount
      nlinarith
    · norm_num
  have hfzcap0 : 0 ≤ (if 0 < ms.kw.getD 0 ∧ 0 < ms.fz.getD 0
      then min (ms.fz.getD 0) (ms.kw.getD 0) else ms.fz.getD 0) := by
    split
    · exact le_min hfz0 hkw0
    · exact hfz0
  have hone : 0 < ms.kw.getD 0 ∨
      0 < (if 0 < ms.kw.getD 0 ∧ 0 < ms.fz.getD 0
        then min (ms.fz.getD 0) (ms.kw.getD 0) else ms.fz.getD 0) ∨
      0 < ms.sm.getD 0 := by
    by_cases h1 : ms.kw.isSome
    · obtain ⟨v, hv⟩ := Option.isSome_iff_exists.1 h1
      left
      rw [hv, Option.getD_some]
      exact hkw v hv
    · by_cases h2 : ms.fz.isSome
      · obtain ⟨v, hv⟩ := Option.isSome_iff_exists.1 h2
        have hfzv : 0 < ms.fz.getD 0 := by
          rw [hv, Option.getD_some]
          exact hfz v hv
        right; left
        split
        · next hc => exact lt_min hfzv hc.1
        · exact hfzv
      · by_cases h3 : ms.sm.isSome
        · obtain ⟨v, hv⟩ := Option.isSome_iff_exists.1 h3
          right; right
          rw [hv, Option.getD_some]
          exact hsm v hv
        · exfalso
          simp [ModeScores.count, h1, h2, h3] at hcount
  unfold compositeScore
  have hc : 0 < 1/2 * ms.kw.getD 0 + 1/4 * (if 0 < ms.kw.getD 0 ∧ 0 < ms.fz.getD 0
      then min (ms.fz.getD 0) (ms.kw.getD 0) else ms.fz.getD 0) + 1/4 * ms.sm.getD 0 +
      min (((ms.count : ℚ) - 1) * (1/10)) (1/5) := by
    rcases hone with h | h | h
    · linarith
    · linarith
    · linarith
  split
  · linarith
  · exact hc

theorem keywordSearch_pos {query : Str} {records : List SearchRecord} {topk : ℕ}
    (hwf : WellFormed records) :
    ∀ p ∈ keywordSearch query records topk, 0 < p.2 := by
  intro p hp
  obtain ⟨r, hget, hne, hall, hscore⟩ := mem_keywordSearch hp
  have hrmem : r ∈ records := by
    rw [List.get?_eq_getElem?] at hget
    obtain ⟨hlt, heq⟩ := List.getElem?_eq_some_iff.1 hget
    exact heq ▸ List.getElem_mem hlt
  have hW : ∀ w ∈ pySplit (toLowerS query),
      ∃ fw ∈ weightedFields r, isSubstr w fw.1 = true := by
    intro w hw
    obtain ⟨hwne, hwchars, -⟩ := pySplit_mem_spec _ w hw
    exact admitted_word_field hwne hwchars (hwf r hrmem) (hall w hw)
  rw [hscore]
  exact (kwScore_bounds hne hW).1

theorem extractMatches_ge_cutoff (scorer : Str → Str → ℚ) (q : Str)
    (choices : List Str) (limit : ℕ) (cutoff : ℚ) :
    ∀ p ∈ extractMatches scorer q choices limit cutoff, cutoff ≤ p.2 := by
  intro p hp
  unfold extractMatches at hp
  have h1 : p ∈ sortPairsDesc (choices.enum.filterMap fun ic =>
      if cutoff ≤ scorer q ic.2 then some (ic.1, scorer q ic.2) else none) :=
    (List.take_sublist _ _).subset hp
  have h2 := (sortPairsDesc_perm _).mem_iff.1 h1
  obtain ⟨ic, hic, hmap⟩ := List.mem_filterMap.1 h2
  by_cases hc : cutoff ≤ scorer q ic.2
  · rw [if_pos hc, Option.some.injEq] at hmap
    rw [← hmap]
    exact hc
  · rw [if_neg hc] at hmap
    cases hmap

theorem fuzzyFold_ge {th : ℚ} {l : List (ℕ × ℚ)} (hl : ∀ x ∈ l, th ≤ x.2) :
    ∀ q ∈ l.foldl (fun acc p => upsert (fun prev => max (prev.getD 0) p.2) p.1 acc) [],
      th ≤ q.2 := by
  refine foldl_preserves_mem
    (P := fun (acc : List (ℕ × ℚ)) => ∀ q ∈ acc, th ≤ q.2) ?_ ?_
  · intro acc x hx hacc
    apply upsert_forall (P := fun q : ℕ × ℚ => th ≤ q.2) hacc
    intro prev _
    exact le_trans (hl x hx) (le_max_right _ _)
  · simp

theorem fuzzySearch_ge_threshold (scorer : Str → Str → ℚ) (query : Str)
    (records : List SearchRecord) (th : ℚ) (topk : ℕ) :
    ∀ p ∈ fuzzySearch scorer query records th topk, th ≤ p.2 := by
  intro p hp
  simp only [fuzzySearch] at hp
  have h1 := (sortPairsDesc_perm _).mem_iff.1 ((List.take_sublist _ _).subset hp)
  refine fuzzyFold_ge ?_ p h1
  intro x hx
  rcases List.mem_append.1 hx with hx | hx
  · exact extractMatches_ge_cutoff _ _ _ _ _ x hx
  · exact extractMatches_ge_cutoff _ _ _ _ _ x hx

theorem grouped_pos (records : List SearchRecord) (hits : List (ℕ × ℚ × List Source))
    (hs : ∀ x ∈ hits, 0 < x.2.1) :
    ∀ od ∈ hits.foldl (addHit records) [], 0 < od.2.score := by
  refine foldl_preserves_mem
    (P := fun (deals : List (Str × DealResult)) => ∀ od ∈ deals, 0 < od.2.score) ?_ ?_
  · intro d x hxl hd
    unfold addHit
    apply upsert_forall (P := fun od : Str × DealResult => 0 < od.2.score) hd
    intro prev hprev
    show 0 < (dealUpdate _ _ _ prev).score
    rw [dealUpdate_score]
    cases prev with
    | none => exact hs x hxl
    | some d0 => exact lt_max_of_lt_left (hprev d0 rfl)
  · simp

theorem applyDensity_pos (c t : List (Str × ℕ)) (X : List (Str × DealResult))
    (h : ∀ od ∈ X, 0 < od.2.score) :
    ∀ od ∈ applyDensity c t X, 0 < od.2.score := by
  intro od' hod'
  obtain ⟨od, hod, hmap⟩ := List.mem_map.1 hod'
  rcases densityAdjust_score_cases c t od with hc | ⟨m, hm, hc⟩
  · rw [← hmap, hc]
    exact h od hod
  · rw [← hmap, hc]
    have hm0 : (0:ℚ) < m := lt_trans (by norm_num) hm
    simpa using mul_pos (h od hod) hm0

theorem applyBoost_pos (scorer : Str → Str → ℚ) (query : Str)
    (X : List (Str × DealResult)) (h : ∀ od ∈ X, 0 < od.2.score) :
    ∀ od ∈ applyBoost scorer query X, 0 < od.2.score := by
  intro od' hod'
  obtain ⟨od, hod, hmap⟩ := List.mem_map.1 hod'
  rcases boostAdjust_score_cases scorer (toLowerS query) (pySplit (toLowerS query)) od
    with hc | hc
  · rw [← hmap, hc]
    exact h od hod
  · rw [← hmap, hc]
    simpa using mul_pos (h od hod) (by norm_num : (0:ℚ) < 6/5)

theorem pipeline_deals_pos (records : List SearchRecord)
    (hits : List (ℕ × ℚ × List Source)) (hs : ∀ x ∈ hits, 0 < x.2.1)
    (b1 b2 : Bool) (c1 c2 t : List (Str × ℕ)) (scorer : Str → Str → ℚ) (query : Str) :
    ∀ od ∈ applyBoost scorer query
      (if b1 then applyDensity c1 t (hits.foldl (addHit records) [])
       else if b2 then applyDensity c2 t (hits.foldl (addHit records) [])
       else hits.foldl (addHit records) []), 0 < od.2.score := by
  have hg := grouped_pos records hits hs
  apply applyBoost_pos
  split
  · exact applyDensity_pos _ _ _ hg
  · split
    · exact applyDensity_pos _ _ _ hg
    · exact hg

theorem pos_of_finalize {l : List DealResult} {topk : ℕ}
    (h : ∀ d ∈ l, 0 < d.score) : ∀ d ∈ finalizeResults topk l, 0 < d.score :=
  fun d hd => h d (mem_finalizeResults topk l hd)

theorem searchPipeline_pos (scorer : Str → Str → ℚ) (smFn : ℕ → List (ℕ × ℚ))
    (query : Str) (records : List SearchRecord) (topk : ℕ)
    (hwf : WellFormed records) (hsm : ∀ p ∈ smFn (fetchK topk), 0 < p.2) :
    ∀ d ∈ searchPipeline scorer smFn query records topk, 0 < d.score := by
  have hhits : ∀ x ∈ (buildModeScores (keywordSearch query records (fetchK topk))
      (fuzzySearch scorer query records 60 (fetchK topk)) (smFn (fetchK topk))).map
      (fun p => (p.1, compositeScore p.2, p.2.sources)), 0 < x.2.1 := by
    intro x hx
    obtain ⟨p, hp, hmap⟩ := List.mem_map.1 hx
    rw [← hmap]
    exact compositeScore_pos (buildModeScores_pos _ _ _
      (fun q hq => keywordSearch_pos hwf q hq)
      (fun q hq => lt_of_lt_of_le (by norm_num)
        (fuzzySearch_ge_threshold scorer query records 60 (fetchK topk) q hq))
      hsm p hp)
  intro d hd
  refine pos_of_finalize ?_ d hd
  intro d' hd'
  obtain ⟨od, hod, rfl⟩ := List.mem_map.1 hd'
  exact pipeline_deals_pos records _ hhits _ _ _ _ _ scorer query od hod

/-- C1, amended: over a well-formed record set, and when every semantic
similarity handed back by the semantic retriever is strictly positive, every
deal returned by search carries a strictly positive score. Without the
amendment the claim fails: the collection loops clamp scores at 0.0, so a
semantic similarity of exactly 0 can surface a deal whose composite score
is 0 (see the zero-score counterexample). -/
theorem C1_scores_strictly_positive (scorer : Str → Str → ℚ)
    (smFn : ℕ → List (ℕ × ℚ)) (query : Str) (records : List SearchRecord)
    (topk : ℕ) (hwf : WellFormed records)
    (hsm : ∀ p ∈ smFn (fetchK topk), 0 < p.2) :
    ∀ d ∈ search scorer smFn query records topk, 0 < d.score := by
  intro d hd
  unfold search at hd
  split at hd
  · cases hd
  · exact searchPipeline_pos scorer smFn query records topk hwf hsm d hd

/-- Witness for C1: over the well-formed one-record corpus with a strictly
positive semantic similarity, the theorem applies at the query "a". -/
theorem C1_scores_strictly_positive_witness :
    WellFormed [sampleRecord] ∧ (∀ p ∈ sampleSm (fetchK 20), 0 < p.2) ∧
    ∀ d ∈ search zeroScorer sampleSm ['a'] [sampleRecord] 20, 0 < d.score := by
  have hwf : WellFormed [sampleRecord] := by
    intro r hr
    simp only [List.mem_singleton] at hr
    subst hr
    rfl
  have hsm : ∀ p ∈ sampleSm (fetchK 20), 0 < p.2 := by
    intro p hp
    simp only [sampleSm, List.mem_singleton] at hp
    subst hp
    norm_num
  exact ⟨hwf, hsm,
    C1_scores_strictly_positive zeroScorer sampleSm ['a'] [sampleRecord] 20 hwf hsm⟩

theorem sortDealsDesc_singleton (d : DealResult) : sortDealsDesc [d] = [d] :=
  List.perm_singleton.1 (sortDealsDesc_perm [d])

/-- Counterexample to C1 as claimed: a record whose semantic similarity is
exactly 0 (and which neither keyword nor fuzzy returns) is still surfaced —
the gate does not fire because the query word "a" is in the corpus
vocabulary — and its deal's score is 0, not strictly positive. -/
theorem C1_zero_score_counterexample :
    ∃ d ∈ search zeroScorer zeroSimSm ['a', ' ', 'b'] [cexRecord] 20,
      ¬ 0 < d.score := by
  have hkw : keywordSearch ['a', ' ', 'b'] [cexRecord] (fetchK 20) = [] := by
    simp [keywordSearch, pySplit, isWS, toLowerS, cexRecord, isSubstr, startsList,
      sortPairsDesc, fetchK]
  have hfz : fuzzySearch zeroScorer ['a', ' ', 'b'] [cexRecord] 60 (fetchK 20) = [] := by
    norm_num [fuzzySearch, extractMatches, zeroScorer, toLowerS, cexRecord,
      sortPairsDesc, fetchK]
  have hgate : gibberishGate zeroScorer ['a', ' ', 'b'] [cexRecord] (fetchK 20) = false := by
    simp [gibberishGate, corpusHasQueryWord, pySplit, isWS, toLowerS, cexRecord]
  have heval : search zeroScorer zeroSimSm ['a', ' ', 'b'] [cexRecord] 20 =
      [{ offer_id := ['o'], offer_name := ['n'], offer_description := ['a'],
         score := 0, sources := [Source.semantic] }] := by
    unfold search
    rw [hgate]
    simp only [Bool.false_eq_true, if_false]
    simp only [searchPipeline]
    rw [hkw, hfz]
    norm_num [zeroSimSm, buildModeScores, kwStep, fzStep, smStep, upsert,
      compositeScore, ModeScores.count, ModeScores.sources, addHit, dealUpdate,
      productCounts, productCountsStrong, offerProductCounts, applyDensity,
      densityAdjust, applyBoost, boostAdjust, lookupA, finalizeResults,
      sortDealsDesc_singleton, adaptiveCutoff, cexRecord, zeroScorer, toLowerS,
      pySplit, isWS, isSubstr, startsList, List.getD]
  rw [heval]
  exact ⟨_, List.mem_singleton_self _, by norm_num⟩

theorem toLower_of_isWS {c : Char} (h : isWS c = true) : c.toLower = c := by
  have h2 : ((c = ' ' ∨ c = '\t') ∨ c = '\x0d') ∨ c = '\n' := by
    simpa [isWS, Char.isWhitespace] using h
  rcases h2 with ((rfl | rfl) | rfl) | rfl <;> decide

theorem pySplit_all_ws : ∀ (s : Str), (∀ c ∈ s, isWS c = true) → pySplit s = [] := by
  intro s
  induction s with
  | nil => intro _; simp [pySplit]
  | cons c rest ih =>
    intro h
    simp only [pySplit]
    rw [if_pos (h c (List.mem_cons_self c rest))]
    exact ih fun x hx => h x (List.mem_cons_of_mem c hx)

theorem sortPairsDesc_nil : sortPairsDesc [] = [] :=
  List.perm_nil.1 (sortPairsDesc_perm [])

theorem sortPairsDesc_singleton (p : ℕ × ℚ) : sortPairsDesc [p] = [p] :=
  List.perm_singleton.1 (sortPairsDesc_perm [p])

/-- C9, amended: a query with no non-whitespace characters yields the empty
sequence provided no fuzzy score reaches 80. Keyword search and the
vocabulary check both see an empty word list, so the gibberish gate fires
once fuzzy stays below 80. Without the proviso the claim fails: fuzzy
search runs on the raw lowered query, and fuzz.partial_ratio can score a
whitespace-only query 80 or higher against an offer name containing
whitespace (see the counterexample). -/
theorem C9_whitespace_query (scorer : Str → Str → ℚ) (smFn : ℕ → List (ℕ × ℚ))
    (query : Str) (records : List SearchRecord) (topk : ℕ)
    (hws : ∀ c ∈ query, isWS c = true)
    (hfz : ∀ p ∈ fuzzySearch scorer query records 60 (fetchK topk), p.2 < 80) :
    search scorer smFn query records topk = [] := by
  have hsplit : pySplit (toLowerS query) = [] := by
    apply pySplit_all_ws
    intro c hc
    obtain ⟨x, hx, rfl⟩ := List.mem_map.1 hc
    rw [toLower_of_isWS (hws x hx)]
    exact hws x hx
  unfold search
  rw [if_pos]
  unfold gibberishGate
  rw [Bool.and_eq_true, Bool.and_eq_true]
  refine ⟨⟨?_, ?_⟩, ?_⟩
  · simp [keywordSearch, hsplit]
  · simp only [Bool.not_eq_true', List.any_eq_false, decide_eq_true_eq]
    intro p hp
    exact not_le.2 (hfz p hp)
  · rw [Bool.not_eq_true', corpusHasQueryWord, hsplit]
    rfl

/-- Witness for C9: the single-space query over the one-record corpus, with
a scorer that keeps every fuzzy score below 80. -/
theorem C9_whitespace_query_witness :
    (∀ c ∈ [' '], isWS c = true) ∧
    search zeroScorer emptySm [' '] [sampleRecord] 20 = [] := by
  refine ⟨by decide, ?_⟩
  apply C9_whitespace_query
  · decide
  · intro p hp
    norm_num [fuzzySearch, extractMatches, zeroScorer, toLowerS, sampleRecord,
      sortPairsDesc, fetchK] at hp

/-- Counterexample to C9 as claimed: on a single-space query the word list
is empty, but fuzzy search still scores the raw lowered query, and a
partial ratio of 100 against the offer name "x y" (whose middle character
the space aligns with) pushes a deal through the gate: search returns a
non-empty sequence for a query that is empty after trimming. -/
theorem C9_whitespace_query_counterexample :
    (∀ c ∈ [' '], isWS c = true) ∧
    search spaceScorer emptySm [' '] [wsRecord] 20 ≠ [] := by
  have hkw : keywordSearch [' '] [wsRecord] (fetchK 20) = [] := by
    simp [keywordSearch, pySplit, isWS, toLowerS]
  have h60a : (60:ℚ) ≤ 100 := by norm_num
  have h60b : ¬ (60:ℚ) ≤ 0 := by norm_num
  have hfz : fuzzySearch spaceScorer [' '] [wsRecord] 60 (fetchK 20) = [(0, 100)] := by
    simp [fuzzySearch, extractMatches, spaceScorer, toLowerS, wsRecord,
      sortPairsDesc_nil, sortPairsDesc_singleton, fetchK, upsert,
      List.filterMap_cons, h60a, h60b]
  have h80 : (80:ℚ) ≤ 100 := by norm_num
  have hgate : gibberishGate spaceScorer [' '] [wsRecord] (fetchK 20) = false := by
    simp [gibberishGate, hfz, h80]
  have heval : search spaceScorer emptySm [' '] [wsRecord] 20 =
      [{ offer_id := ['o'], offer_name := ['x', ' ', 'y'], score := 3/10,
         sources := [Source.fuzzy] }] := by
    have hmul1 : (1:ℚ)/4 * (6/5) = 3/10 := by norm_num
    have hmul2 : ((4:ℚ))⁻¹ * (6/5) = 3/10 := by norm_num
    have hhalf1 : ¬ ((1:ℚ)/2 ≤ 3/10) := by norm_num
    have hhalf2 : ¬ (((2:ℚ))⁻¹ ≤ 3/10) := by norm_num
    have hcut : (3:ℚ)/10 * (7/10) ≤ 3/10 := by norm_num
    unfold search
    rw [hgate]
    simp only [Bool.false_eq_true, if_false]
    simp only [searchPipeline]
    rw [hkw, hfz]
    simp [emptySm, buildModeScores, kwStep, fzStep, smStep, upsert,
      compositeScore, ModeScores.count, ModeScores.sources, addHit, dealUpdate,
      productCounts, productCountsStrong, offerProductCounts, applyDensity,
      densityAdjust, applyBoost, boostAdjust, lookupA, finalizeResults,
      sortDealsDesc_singleton, adaptiveCutoff, wsRecord, spaceScorer, toLowerS,
      pySplit, isWS, List.getD, hmul1, hmul2, hhalf1, hhalf2, hcut, h80]
  refine ⟨by decide, ?_⟩
  rw [heval]
  simp

theorem daysUntilExpiry_past {endStr : Str} {nowMs e : ℤ}
    (hparse : parseIntS endStr = some e) (hlt : e < nowMs) :
    daysUntilExpiry endStr nowMs = some 0 := by
  have hne : endStr ≠ [] := by
    intro h
    rw [h] at hparse
    simp [parseIntS, digitsVal] at hparse
  unfold daysUntilExpiry
  rw [if_neg hne, hparse]
  have hq : (((e - nowMs : ℤ) : ℚ) / (1000 * 60 * 60 * 24)) < 0 := by
    apply div_neg_of_neg_of_pos
    · exact_mod_cast sub_neg.2 hlt
    · norm_num
  have htr : pyTrunc (((e - nowMs : ℤ) : ℚ) / (1000 * 60 * 60 * 24)) ≤ 0 := by
    unfold pyTrunc
    rw [if_neg (not_le.2 hq)]
    exact Int.ceil_le.2 (by exact_mod_cast le_of_lt hq)
  show some (max 0 (pyTrunc (((e - nowMs : ℤ) : ℚ) / (1000 * 60 * 60 * 24)))) = some 0
  rw [max_eq_left htr]

theorem maxDaysOf_nonneg {expiry : Str} {maxd : ℤ}
    (h : maxDaysOf expiry = some maxd) : 0 ≤ maxd := by
  unfold maxDaysOf at h
  split_ifs at h <;> simp at h <;> omega

/-- C10: with an active expiry window, a deal whose looked-up end date
parses to an epoch-millisecond instant already in the past gets exactly 0
days until expiry (the negative difference is clamped to 0) and is kept
under every window — in particular under "today" —, while a deal whose end
date is missing or unparseable (days-until-expiry none) is removed. -/
theorem C10_expiry_filter (deals : List DealResult) (expiry : Str)
    (data : List RawDeal) (nowMs maxd : ℤ)
    (hwin : maxDaysOf expiry = some maxd) :
    (∀ endStr e, parseIntS endStr = some e → e < nowMs →
        daysUntilExpiry endStr nowMs = some 0) ∧
    (∀ d ∈ deals, ∀ e,
        parseIntS ((lookupA d.offer_id (data.foldl
            (fun acc rd => upsert (fun _ => rd.endDate) rd.offerId acc) [])).getD [])
          = some e →
        e < nowMs → d ∈ filterByExpiry deals expiry data nowMs) ∧
    (∀ d, daysUntilExpiry ((lookupA d.offer_id (data.foldl
            (fun acc rd => upsert (fun _ => rd.endDate) rd.offerId acc) [])).getD [])
          nowMs = none →
        d ∉ filterByExpiry deals expiry data nowMs) := by
  have hmaxd : 0 ≤ maxd := maxDaysOf_nonneg hwin
  refine ⟨fun endStr e hp hlt => daysUntilExpiry_past hp hlt, ?_, ?_⟩
  · intro d hd e hp hlt
    simp only [filterByExpiry, hwin]
    refine List.mem_filter.2 ⟨hd, ?_⟩
    rw [daysUntilExpiry_past hp hlt]
    simpa using hmaxd
  · intro d hnone hmem
    simp only [filterByExpiry, hwin] at hmem
    have h2 := (List.mem_filter.1 hmem).2
    rw [hnone] at h2
    simp at h2

/-- Witness for C10 at the window "today" (maximum 0 days), applied to an
empty deal list and empty raw data. -/
theorem C10_expiry_filter_witness :
    maxDaysOf "today".toList = some 0 ∧
    ((∀ endStr e, parseIntS endStr = some e → e < 0 →
        daysUntilExpiry endStr 0 = some 0) ∧
     (∀ d ∈ ([] : List DealResult), ∀ e,
        parseIntS ((lookupA d.offer_id (([] : List RawDeal).foldl
            (fun acc rd => upsert (fun _ => rd.endDate) rd.offerId acc) [])).getD [])
          = some e →
        e < 0 → d ∈ filterByExpiry [] "today".toList [] 0) ∧
     (∀ d, daysUntilExpiry ((lookupA d.offer_id (([] : List RawDeal).foldl
            (fun acc rd => upsert (fun _ => rd.endDate) rd.offerId acc) [])).getD [])
          0 = none →
        d ∉ filterByExpiry [] "today".toList [] 0)) :=
  ⟨by decide, C10_expiry_filter [] "today".toList [] 0 0 (by decide)⟩

theorem upsert_append_of_not_mem {α β : Type} [DecidableEq α] {f : Option β → β}
    {k : α} : ∀ {l : List (α × β)}, k ∉ l.map Prod.fst →
    upsert f k l = l ++ [(k, f none)] := by
  intro l
  induction l with
  | nil => intro _; rfl
  | cons p rest ih =>
    intro h
    simp only [List.map_cons, List.mem_cons, not_or] at h
    simp only [upsert]
    rw [if_neg (fun hh => h.1 hh.symm), ih h.2, List.cons_append]

theorem smStep_fold_append :
    ∀ (l : List (ℕ × ℚ)) (acc : List (ℕ × ModeScores)),
    (l.map Prod.fst).Nodup →
    (∀ p ∈ l, p.1 ∉ acc.map Prod.fst) →
    (∀ p ∈ l, 0 ≤ p.2) →
    l.foldl smStep acc = acc ++ l.map fun p => (p.1, { sm := some p.2 }) := by
  intro l
  induction l with
  | nil => intro acc _ _ _; simp
  | cons x rest ih =>
    intro acc hnd hnin hnn
    rw [List.map_cons, List.nodup_cons] at hnd
    have hmax : max 0 x.2 = x.2 := max_eq_right (hnn x (List.mem_cons_self x rest))
    have hx : smStep acc x = acc ++ [(x.1, { sm := some x.2 })] := by
      unfold smStep
      rw [upsert_append_of_not_mem (hnin x (List.mem_cons_self x rest))]
      simp [hmax]
    have hnin2 : ∀ p ∈ rest, p.1 ∉
        (acc ++ [(x.1, ({ sm := some x.2 } : ModeScores))]).map Prod.fst := by
      intro p hp
      rw [List.map_append, List.mem_append]
      push_neg
      refine ⟨hnin p (List.mem_cons_of_mem x hp), ?_⟩
      simp only [List.map_cons, List.map_nil, List.mem_singleton]
      intro hpk
      exact hnd.1 (hpk ▸ List.mem_map_of_mem Prod.fst hp)
    rw [List.foldl_cons, hx,
      ih _ hnd.2 hnin2 (fun p hp => hnn p (List.mem_cons_of_mem x hp))]
    simp

theorem addHit_fold_append (records : List SearchRecord) :
    ∀ (hits : List (ℕ × ℚ × List Source)) (acc : List (Str × DealResult)),
    hits.Pairwise (fun x y =>
      (records.getD x.1 default).offer_id ≠ (records.getD y.1 default).offer_id) →
    (∀ x ∈ hits, (records.getD x.1 default).offer_id ∉ acc.map Prod.fst) →
    hits.foldl (addHit records) acc =
      acc ++ hits.map fun x =>
        ((records.getD x.1 default).offer_id,
          dealUpdate (records.getD x.1 default) x.2.1 x.2.2 none) := by
  intro hits
  induction hits with
  | nil => intro acc _ _; simp
  | cons x rest ih =>
    intro acc hpw hnin
    obtain ⟨hx_rel, hrest⟩ := List.pairwise_cons.1 hpw
    have hx : addHit records acc x =
        acc ++ [((records.getD x.1 default).offer_id,
          dealUpdate (records.getD x.1 default) x.2.1 x.2.2 none)] := by
      unfold addHit
      exact upsert_append_of_not_mem (hnin x (List.mem_cons_self x rest))
    have hnin2 : ∀ y ∈ rest, (records.getD y.1 default).offer_id ∉
        (acc ++ [((records.getD x.1 default).offer_id,
          dealUpdate (records.getD x.1 default) x.2.1 x.2.2 none)]).map Prod.fst := by
      intro y hy
      rw [List.map_append, List.mem_append]
      push_neg
      refine ⟨hnin y (List.mem_cons_of_mem x hy), ?_⟩
      simp only [List.map_cons, List.map_nil, List.mem_singleton]
      exact fun hyk => (hx_rel y hy) hyk.symm
    rw [List.foldl_cons, hx, ih _ hrest hnin2]
    simp

theorem dealUpdate_none_no_product {r : SearchRecord} (sc : ℚ) (srcs : List Source)
    (h : r.product_name = []) :
    dealUpdate r sc srcs none =
      { offer_id := r.offer_id, offer_name := r.offer_name,
        offer_price := r.offer_price, offer_description := r.offer_description,
        offer_category := r.offer_category, offer_pgm := r.offer_pgm,
        score := sc, sources := srcs, matching_products := [] } := by
  unfold dealUpdate
  simp [h]

theorem composite_sm_only (s : ℚ) : compositeScore { sm := some s } = s * (1/8) := by
  unfold compositeScore
  norm_num [ModeScores.count]
  ring

theorem composite_kw_only : compositeScore { kw := some ((1:ℚ)/6) } = 1/12 := by
  unfold compositeScore
  norm_num [ModeScores.count, Option.some_ne_none]

theorem composite_kw_sm :
    compositeScore { kw := some ((1:ℚ)/6), sm := some ((1:ℚ)/100) } = 223/1200 := by
  unfold compositeScore
  norm_num [ModeScores.count, Option.some_ne_none]

theorem sources_sm_only (s : ℚ) :
    ModeScores.sources { sm := some s } = [Source.semantic] := rfl

theorem sources_kw_only (s : ℚ) :
    ModeScores.sources { kw := some s } = [Source.keyword] := rfl

theorem sources_kw_sm (s t : ℚ) :
    ModeScores.sources { kw := some s, sm := some t } =
      [Source.keyword, Source.semantic] := rfl

theorem isSubstr_q_replicate_n : ∀ i : ℕ,
    isSubstr ['q'] (List.replicate i 'n') = false := by
  intro i
  induction i with
  | zero => rfl
  | succ n ih =>
    rw [List.replicate_succ, isSubstr]
    simp [startsList, ih]

theorem isSubstr_q_toLower_replicate (i : ℕ) :
    isSubstr ['q'] (toLowerS (List.replicate i 'n')) = false := by
  have h : toLowerS (List.replicate i 'n') = List.replicate i 'n' := by
    simp [toLowerS]
  rw [h, isSubstr_q_replicate_n]

theorem padSim_nonneg {i : ℕ} (h : i ≤ 519) : 0 ≤ padSim i := by
  unfold padSim
  split
  · norm_num
  · have h2 : (0:ℚ) ≤ ((2000 - (i:ℤ) : ℤ) : ℚ) := by
      have : (0:ℤ) ≤ 2000 - (i:ℤ) := by omega
      exact_mod_cast this
    positivity

theorem padSim_le (i : ℕ) : padSim i ≤ 499/1000 := by
  unfold padSim
  split
  · exact le_refl _
  · have h2 : ((2000 - (i:ℤ) : ℤ) : ℚ) ≤ 2000 := by
      have : (2000 - (i:ℤ)) ≤ 2000 := by omega
      exact_mod_cast this
    linarith

theorem padSim_le_of_two {i : ℕ} (h : 2 ≤ i) : padSim i ≤ 1998/10000 := by
  unfold padSim
  rw [if_neg (by omega : ¬ i = 1)]
  have h2 : ((2000 - (i:ℤ) : ℤ) : ℚ) ≤ 1998 := by
    have : (2000 - (i:ℤ)) ≤ 1998 := by omega
    exact_mod_cast this
  linarith

theorem padSim_mono {i j : ℕ} (h1 : 1 ≤ i) (hij : i < j) : padSim j ≤ padSim i := by
  unfold padSim
  by_cases hi : i = 1
  · subst hi
    rw [if_pos rfl, if_neg (by omega : ¬ j = 1)]
    have h2 : ((2000 - (j:ℤ) : ℤ) : ℚ) ≤ 1998 := by
      have : (2000 - (j:ℤ)) ≤ 1998 := by omega
      exact_mod_cast this
    linarith
  · rw [if_neg hi, if_neg (by omega : ¬ j = 1)]
    have h2 : ((2000 - (j:ℤ) : ℤ) : ℚ) ≤ ((2000 - (i:ℤ) : ℤ) : ℚ) := by
      have : (2000 - (j:ℤ)) ≤ 2000 - (i:ℤ) := by omega
      exact_mod_cast this
    linarith

theorem wordBest_kwRecord : wordBest kwRecord ['q'] = 3/4 := by
  have hm : (1:ℚ)/2 * (3/2) = 3/4 := by norm_num
  have hm2 : ((2:ℚ))⁻¹ * (3/2) = 3/4 := by norm_num
  have hww : wholeWord ['q'] (toLowerS ['q']) = true := by decide
  have h1 : isSubstr ['q'] (toLowerS ['n']) = false := by decide
  have h2 : isSubstr ['q'] (toLowerS []) = false := by decide
  have h3 : isSubstr ['q'] (toLowerS ['q']) = true := by decide
  simp [wordBest, weightedFields, kwRecord, h1, h2, h3, hww, hm, hm2]
  norm_num

theorem kwScore_kwRecord : kwScore [['q']] kwRecord = 1/6 := by
  rw [kwScore]
  norm_num [wordBest_kwRecord]

theorem words_q : pySplit (toLowerS ['q']) = [['q']] := by
  simp [pySplit, toLowerS, isWS]

theorem big_keywordSearch {fk : ℕ} (hfk : 1 ≤ fk) :
    keywordSearch ['q'] bigRecords fk = [(0, 1/6)] := by
  have henum : bigRecords.enum =
      (0, kwRecord) :: ((List.range' 1 519).map mkPad).enumFrom 1 := by
    rw [bigRecords, List.enum_cons]
  have htail : (((List.range' 1 519).map mkPad).enumFrom 1).filter (fun ir =>
      [['q']].all fun w => isSubstr w (toLowerS ir.2.search_text)) = [] := by
    apply List.filter_eq_nil_iff.2
    intro x hx
    obtain ⟨h1, h2, h3⟩ := List.mem_enumFrom hx
    have hx2 : x.2 ∈ (List.range' 1 519).map mkPad := by
      rw [h3]
      exact List.getElem_mem _
    obtain ⟨i, hi, hxi⟩ := List.mem_map.1 hx2
    simp only [List.all_cons, List.all_nil, Bool.and_true, ← hxi, mkPad]
    simp [isSubstr_q_toLower_replicate]
  have hfilter : (bigRecords.enum.filter fun ir =>
      [['q']].all fun w => isSubstr w (toLowerS ir.2.search_text)) = [(0, kwRecord)] := by
    rw [henum, List.filter_cons_of_pos (by decide), htail]
  simp only [keywordSearch]
  rw [words_q, if_neg (by simp : ¬([['q']] : List Str).isEmpty = true), hfilter]
  simp only [List.map_cons, List.map_nil, kwScore_kwRecord, sortPairsDesc_singleton]
  exact List.take_of_length_le (by simpa using hfk)

theorem extractMatches_zero (q : Str) (choices : List Str) (limit : ℕ) :
    extractMatches zeroScorer q choices limit 60 = [] := by
  unfold extractMatches
  have h : (choices.enum.filterMap fun ic =>
      if (60:ℚ) ≤ zeroScorer q ic.2 then some (ic.1, zeroScorer q ic.2) else none)
        = [] := by
    apply List.filterMap_eq_nil_iff.2
    intro a _
    have hlt : ¬ (60:ℚ) ≤ zeroScorer q a.2 := by norm_num [zeroScorer]
    rw [if_neg hlt]
  rw [h, sortPairsDesc_nil]
  simp

theorem fuzzySearch_zero (query : Str) (records : List SearchRecord) (k : ℕ) :
    fuzzySearch zeroScorer query records 60 k = [] := by
  simp only [fuzzySearch]
  rw [extractMatches_zero, extractMatches_zero]
  simp [sortPairsDesc_nil]

theorem bigSm_510 : bigSm 510 = (List.range' 1 510).map fun i => (i, padSim i) := by
  unfold bigSm
  have hsplit : List.range' 1 519 = List.range' 1 510 ++ List.range' 511 9 := by
    have h := List.range'_append 1 510 9 1
    norm_num at h
    exact h.symm
  have hA : ((List.range' 1 510).map fun i => (i, padSim i)).length = 510 := by simp
  rw [hsplit, List.map_append, List.append_assoc, List.take_append_eq_append_take, hA,
    List.take_of_length_le (le_of_eq hA)]
  norm_num

theorem bigSm_520 : bigSm 520 =
    ((List.range' 1 519).map fun i => (i, padSim i)) ++ [(0, 1/100)] := by
  unfold bigSm
  exact List.take_of_length_le (by simp)

theorem kwStep_start :
    [((0:ℕ), (1:ℚ)/6)].foldl kwStep [] = [(0, { kw := some (1/6) })] := by
  simp [kwStep, upsert]

theorem bigModeScores1 :
    buildModeScores [((0:ℕ), (1:ℚ)/6)] [] (bigSm 510) =
      (0, ({ kw := some (1/6) } : ModeScores)) ::
        ((List.range' 1 510).map fun i => (i, ({ sm := some (padSim i) } : ModeScores))) := by
  unfold buildModeScores
  rw [bigSm_510, kwStep_start, List.foldl_nil]
  rw [smStep_fold_append _ _ ?nd ?nin ?nn]
  · rw [List.map_map]
    simp [Function.comp]
  case nd =>
    rw [List.map_map]
    have hc : (Prod.fst ∘ fun i => ((i : ℕ), padSim i)) = id := by
      funext i
      rfl
    rw [hc, List.map_id]
    exact List.nodup_range' _ _
  case nin =>
    intro p hp
    obtain ⟨i, hi, rfl⟩ := List.mem_map.1 hp
    have h1 := (List.mem_range'_1.1 hi).1
    simp only [List.map_cons, List.map_nil, List.mem_singleton]
    omega
  case nn =>
    intro p hp
    obtain ⟨i, hi, rfl⟩ := List.mem_map.1 hp
    have h2 := (List.mem_range'_1.1 hi).2
    exact padSim_nonneg (by omega)

theorem bigModeScores2 :
    buildModeScores [((0:ℕ), (1:ℚ)/6)] [] (bigSm 520) =
      (0, ({ kw := some (1/6), sm := some (1/100) } : ModeScores)) ::
        ((List.range' 1 519).map fun i => (i, ({ sm := some (padSim i) } : ModeScores))) := by
  unfold buildModeScores
  rw [bigSm_520, kwStep_start, List.foldl_nil, List.foldl_append]
  have hpads : (List.map (fun i => ((i:ℕ), padSim i)) (List.range' 1 519)).foldl smStep
      [(0, ({ kw := some ((1:ℚ)/6) } : ModeScores))] =
      (0, ({ kw := some ((1:ℚ)/6) } : ModeScores)) ::
        ((List.range' 1 519).map fun i => (i, ({ sm := some (padSim i) } : ModeScores))) := by
    rw [smStep_fold_append _ _ ?nd ?nin ?nn]
    · rw [List.map_map]
      simp [Function.comp]
    case nd =>
      rw [List.map_map]
      have hc : (Prod.fst ∘ fun i => ((i : ℕ), padSim i)) = id := by
        funext i
        rfl
      rw [hc, List.map_id]
      exact List.nodup_range' _ _
    case nin =>
      intro p hp
      obtain ⟨i, hi, rfl⟩ := List.mem_map.1 hp
      have h1 := (List.mem_range'_1.1 hi).1
      simp only [List.map_cons, List.map_nil, List.mem_singleton]
      omega
    case nn =>
      intro p hp
      obtain ⟨i, hi, rfl⟩ := List.mem_map.1 hp
      have h2 := (List.mem_range'_1.1 hi).2
      exact padSim_nonneg (by omega)
  rw [hpads]
  simp [smStep, upsert]

theorem replicate_o_ne_z {i : ℕ} (h : 1 ≤ i) : List.replicate i 'o' ≠ ['z'] := by
  obtain ⟨j, rfl⟩ := Nat.exists_eq_add_of_le h
  rw [Nat.add_comm, List.replicate_succ]
  simp

theorem bigRecords_getD {i : ℕ} (h1 : 1 ≤ i) (h2 : i < 520) :
    bigRecords.getD i default = mkPad i := by
  obtain ⟨j, rfl⟩ := Nat.exists_eq_add_of_le h1
  have hj : j < 519 := by omega
  rw [show 1 + j = j + 1 from Nat.add_comm 1 j]
  unfold bigRecords
  rw [List.getD_cons_succ, List.getD_eq_getElem?_getD, List.getElem?_map,
    List.getElem?_range' 1 1 hj]
  simp [Nat.add_comm]

theorem bigHits1 :
    ((0, ({ kw := some ((1:ℚ)/6) } : ModeScores)) ::
      ((List.range' 1 510).map fun i => (i, ({ sm := some (padSim i) } : ModeScores)))).map
      (fun p => (p.1, compositeScore p.2, p.2.sources)) =
    ((0:ℕ), ((1:ℚ)/12, [Source.keyword])) ::
      ((List.range' 1 510).map fun i => (i, padSim i * (1/8), [Source.semantic])) := by
  rw [List.map_cons, List.map_map]
  congr 1
  · dsimp only
    rw [composite_kw_only, sources_kw_only]
  · apply List.map_congr_left
    intro i _
    simp [Function.comp, composite_sm_only, sources_sm_only]

theorem bigHits2 :
    ((0, ({ kw := some ((1:ℚ)/6), sm := some ((1:ℚ)/100) } : ModeScores)) ::
      ((List.range' 1 519).map fun i => (i, ({ sm := some (padSim i) } : ModeScores)))).map
      (fun p => (p.1, compositeScore p.2, p.2.sources)) =
    ((0:ℕ), ((223:ℚ)/1200, [Source.keyword, Source.semantic])) ::
      ((List.range' 1 519).map fun i => (i, padSim i * (1/8), [Source.semantic])) := by
  rw [List.map_cons, List.map_map]
  congr 1
  · dsimp only
    rw [composite_kw_sm, sources_kw_sm]
  · apply List.map_congr_left
    intro i _
    simp [Function.comp, composite_sm_only, sources_sm_only]

theorem bigDeals1 :
    (((0:ℕ), ((1:ℚ)/12, [Source.keyword])) ::
      ((List.range' 1 510).map fun i => (i, padSim i * (1/8), [Source.semantic]))).foldl
      (addHit bigRecords) [] =
    (['z'], kwDeal1) ::
      ((List.range' 1 510).map fun i => (List.replicate i 'o', padDeal i)) := by
  rw [List.foldl_cons]
  have hstep : addHit bigRecords [] ((0:ℕ), ((1:ℚ)/12, [Source.keyword])) =
      [(['z'], kwDeal1)] := by
    unfold addHit
    simp [bigRecords, upsert, dealUpdate, kwRecord, kwDeal1]
  rw [hstep, addHit_fold_append bigRecords _ _ ?pw ?nin]
  · rw [List.map_map]
    have hmap : ∀ i ∈ List.range' 1 510,
        ((fun x : ℕ × ℚ × List Source => ((bigRecords.getD x.1 default).offer_id,
            dealUpdate (bigRecords.getD x.1 default) x.2.1 x.2.2 none)) ∘
          fun i => ((i:ℕ), padSim i * (1/8), [Source.semantic])) i =
        (List.replicate i 'o', padDeal i) := by
      intro i hi
      obtain ⟨hi1, hi2⟩ := List.mem_range'_1.1 hi
      have hg : bigRecords.getD i default = mkPad i := bigRecords_getD hi1 (by omega)
      dsimp only [Function.comp]
      rw [hg, dealUpdate_none_no_product _ _ rfl]
      rfl
    rw [List.map_congr_left hmap]
    rfl
  case pw =>
    rw [List.pairwise_map]
    have hpw := List.pairwise_lt_range' 1 510 1 (by omega)
    refine hpw.imp_of_mem ?_
    intro a b ha hb hab
    obtain ⟨ha1, ha2⟩ := List.mem_range'_1.1 ha
    obtain ⟨hb1, hb2⟩ := List.mem_range'_1.1 hb
    dsimp only
    rw [bigRecords_getD ha1 (by omega), bigRecords_getD hb1 (by omega)]
    simp only [mkPad]
    intro hcon
    have hlen := congrArg List.length hcon
    simp at hlen
    omega
  case nin =>
    intro x hx
    obtain ⟨i, hi, rfl⟩ := List.mem_map.1 hx
    obtain ⟨hi1, hi2⟩ := List.mem_range'_1.1 hi
    dsimp only
    rw [bigRecords_getD hi1 (by omega)]
    simp only [mkPad, List.map_cons, List.map_nil, List.mem_singleton]
    exact replicate_o_ne_z hi1

theorem bigDeals2 :
    (((0:ℕ), ((223:ℚ)/1200, [Source.keyword, Source.semantic])) ::
      ((List.range' 1 519).map fun i => (i, padSim i * (1/8), [Source.semantic]))).foldl
      (addHit bigRecords) [] =
    (['z'], kwDeal2) ::
      ((List.range' 1 519).map fun i => (List.replicate i 'o', padDeal i)) := by
  rw [List.foldl_cons]
  have hstep : addHit bigRecords []
      ((0:ℕ), ((223:ℚ)/1200, [Source.keyword, Source.semantic])) =
      [(['z'], kwDeal2)] := by
    unfold addHit
    simp [bigRecords, upsert, dealUpdate, kwRecord, kwDeal2]
  rw [hstep, addHit_fold_append bigRecords _ _ ?pw ?nin]
  · rw [List.map_map]
    have hmap : ∀ i ∈ List.range' 1 519,
        ((fun x : ℕ × ℚ × List Source => ((bigRecords.getD x.1 default).offer_id,
            dealUpdate (bigRecords.getD x.1 default) x.2.1 x.2.2 none)) ∘
          fun i => ((i:ℕ), padSim i * (1/8), [Source.semantic])) i =
        (List.replicate i 'o', padDeal i) := by
      intro i hi
      obtain ⟨hi1, hi2⟩ := List.mem_range'_1.1 hi
      have hg : bigRecords.getD i default = mkPad i := bigRecords_getD hi1 (by omega)
      dsimp only [Function.comp]
      rw [hg, dealUpdate_none_no_product _ _ rfl]
      rfl
    rw [List.map_congr_left hmap]
    rfl
  case pw =>
    rw [List.pairwise_map]
    have hpw := List.pairwise_lt_range' 1 519 1 (by omega)
    refine hpw.imp_of_mem ?_
    intro a b ha hb hab
    obtain ⟨ha1, ha2⟩ := List.mem_range'_1.1 ha
    obtain ⟨hb1, hb2⟩ := List.mem_range'_1.1 hb
    dsimp only
    rw [bigRecords_getD ha1 (by omega), bigRecords_getD hb1 (by omega)]
    simp only [mkPad]
    intro hcon
    have hlen := congrArg List.length hcon
    simp at hlen
    omega
  case nin =>
    intro x hx
    obtain ⟨i, hi, rfl⟩ := List.mem_map.1 hx
    obtain ⟨hi1, hi2⟩ := List.mem_range'_1.1 hi
    dsimp only
    rw [bigRecords_getD hi1 (by omega)]
    simp only [mkPad, List.map_cons, List.map_nil, List.mem_singleton]
    exact replicate_o_ne_z hi1

theorem boost_pad_noop (i : ℕ) :
    boostAdjust zeroScorer (toLowerS ['q']) [['q']]
      (List.replicate i 'o', padDeal i) = (List.replicate i 'o', padDeal i) := by
  have ha : ([['q']].any fun w =>
      isSubstr w (toLowerS (padDeal i).offer_name)) = false := by
    simp [padDeal, isSubstr_q_toLower_replicate]
  have hb : ¬ (80:ℚ) ≤ zeroScorer (toLowerS ['q']) (toLowerS (padDeal i).offer_name) := by
    norm_num [zeroScorer]
  simp [boostAdjust, ha, hb]

theorem boost_kw_noop (d : DealResult) (h : d.offer_name = ['n']) (k : Str) :
    boostAdjust zeroScorer (toLowerS ['q']) [['q']] (k, d) = (k, d) := by
  have ha : ([['q']].any fun w => isSubstr w (toLowerS d.offer_name)) = false := by
    rw [h]
    decide
  have hb : ¬ (80:ℚ) ≤ zeroScorer (toLowerS ['q']) (toLowerS d.offer_name) := by
    norm_num [zeroScorer]
  simp [boostAdjust, ha, hb]

theorem bigBoost1 :
    applyBoost zeroScorer ['q'] ((['z'], kwDeal1) ::
      ((List.range' 1 510).map fun i => (List.replicate i 'o', padDeal i))) =
    (['z'], kwDeal1) ::
      ((List.range' 1 510).map fun i => (List.replicate i 'o', padDeal i)) := by
  unfold applyBoost
  rw [words_q]
  refine (List.map_congr_left ?_).trans (List.map_id' _)
  intro od hod
  rcases List.mem_cons.1 hod with rfl | hod
  · exact boost_kw_noop kwDeal1 rfl ['z']
  · obtain ⟨i, hi, rfl⟩ := List.mem_map.1 hod
    exact boost_pad_noop i

theorem bigBoost2 :
    applyBoost zeroScorer ['q'] ((['z'], kwDeal2) ::
      ((List.range' 1 519).map fun i => (List.replicate i 'o', padDeal i))) =
    (['z'], kwDeal2) ::
      ((List.range' 1 519).map fun i => (List.replicate i 'o', padDeal i)) := by
  unfold applyBoost
  rw [words_q]
  refine (List.map_congr_left ?_).trans (List.map_id' _)
  intro od hod
  rcases List.mem_cons.1 hod with rfl | hod
  · exact boost_kw_noop kwDeal2 rfl ['z']
  · obtain ⟨i, hi, rfl⟩ := List.mem_map.1 hod
    exact boost_pad_noop i

theorem bigMapSnd1 :
    ((((['z'], kwDeal1) ::
      ((List.range' 1 510).map fun i => (List.replicate i 'o', padDeal i)))).map
        (fun x => x.2)) =
    kwDeal1 :: ((List.range' 1 510).map padDeal) := by
  rw [List.map_cons, List.map_map]
  rfl

theorem bigMapSnd2 :
    ((((['z'], kwDeal2) ::
      ((List.range' 1 519).map fun i => (List.replicate i 'o', padDeal i)))).map
        (fun x => x.2)) =
    kwDeal2 :: ((List.range' 1 519).map padDeal) := by
  rw [List.map_cons, List.map_map]
  rfl

theorem sortDealsDesc_of_sorted {l : List DealResult}
    (h : l.Pairwise fun a b => b.score ≤ a.score) : sortDealsDesc l = l := by
  apply List.mergeSort_of_sorted
  exact h.imp fun hab => by simpa using hab

theorem bigSorted1 : (kwDeal1 :: ((List.range' 1 510).map padDeal)).Pairwise
    (fun a b => b.score ≤ a.score) := by
  rw [List.pairwise_cons]
  constructor
  · intro d hd
    obtain ⟨i, hi, rfl⟩ := List.mem_map.1 hd
    have h1 := padSim_le i
    simp only [padDeal, kwDeal1]
    linarith
  · rw [List.pairwise_map]
    have hpw := List.pairwise_lt_range' 1 510 1 (by omega)
    refine hpw.imp_of_mem ?_
    intro a b ha hb hab
    obtain ⟨ha1, _⟩ := List.mem_range'_1.1 ha
    have hm := padSim_mono ha1 hab
    simp only [padDeal]
    linarith

theorem bigSorted2 : (kwDeal2 :: ((List.range' 1 519).map padDeal)).Pairwise
    (fun a b => b.score ≤ a.score) := by
  rw [List.pairwise_cons]
  constructor
  · intro d hd
    obtain ⟨i, hi, rfl⟩ := List.mem_map.1 hd
    have h1 := padSim_le i
    simp only [padDeal, kwDeal2]
    linarith
  · rw [List.pairwise_map]
    have hpw := List.pairwise_lt_range' 1 519 1 (by omega)
    refine hpw.imp_of_mem ?_
    intro a b ha hb hab
    obtain ⟨ha1, _⟩ := List.mem_range'_1.1 ha
    have hm := padSim_mono ha1 hab
    simp only [padDeal]
    linarith

theorem bigTake1 : (kwDeal1 :: ((List.range' 1 510).map padDeal)).take 51 =
    kwDeal1 :: ((List.range' 1 50).map padDeal) := by
  rw [show (51:ℕ) = 50 + 1 from rfl, List.take_succ_cons]
  congr 1

theorem bigTake2 : (kwDeal2 :: ((List.range' 1 519).map padDeal)).take 52 =
    kwDeal2 :: ((List.range' 1 51).map padDeal) := by
  rw [show (52:ℕ) = 51 + 1 from rfl, List.take_succ_cons]
  congr 1

theorem bigCutoff1 : adaptiveCutoff (kwDeal1 :: ((List.range' 1 50).map padDeal)) =
    [kwDeal1, padDeal 1] := by
  have hhalf : ¬ ((1:ℚ)/2 ≤ kwDeal1.score) := by norm_num [kwDeal1]
  simp only [adaptiveCutoff]
  rw [if_neg hhalf]
  rw [List.filter_cons_of_pos (by norm_num [kwDeal1])]
  have hr : List.range' 1 50 = 1 :: List.range' 2 49 := by
    have h := List.range'_succ 1 49 1
    norm_num at h
    exact h
  rw [hr, List.map_cons, List.filter_cons_of_pos ?p1, List.filter_eq_nil_iff.2 ?rest]
  case p1 =>
    have hp1 : padSim 1 = 499/1000 := by simp [padSim]
    norm_num [padDeal, kwDeal1, hp1]
  case rest =>
    intro d hd
    obtain ⟨i, hi, rfl⟩ := List.mem_map.1 hd
    obtain ⟨hi1, _⟩ := List.mem_range'_1.1 hi
    have h2 := padSim_le_of_two hi1
    simp only [padDeal, kwDeal1, decide_eq_true_eq]
    intro hcon
    linarith

theorem bigCutoff2 : adaptiveCutoff (kwDeal2 :: ((List.range' 1 51).map padDeal)) =
    [kwDeal2] := by
  have hhalf : ¬ ((1:ℚ)/2 ≤ kwDeal2.score) := by norm_num [kwDeal2]
  simp only [adaptiveCutoff]
  rw [if_neg hhalf]
  rw [List.filter_cons_of_pos (by norm_num [kwDeal2])]
  rw [List.filter_eq_nil_iff.2 ?rest]
  case rest =>
    intro d hd
    obtain ⟨i, hi, rfl⟩ := List.mem_map.1 hd
    have h1 := padSim_le i
    simp only [padDeal, kwDeal2, decide_eq_true_eq]
    intro hcon
    linarith

theorem bigFinalize1 :
    finalizeResults 51 (kwDeal1 :: ((List.range' 1 510).map padDeal)) =
      [kwDeal1, padDeal 1] := by
  unfold finalizeResults
  rw [sortDealsDesc_of_sorted bigSorted1, bigTake1, bigCutoff1]

theorem bigFinalize2 :
    finalizeResults 52 (kwDeal2 :: ((List.range' 1 519).map padDeal)) =
      [kwDeal2] := by
  unfold finalizeResults
  rw [sortDealsDesc_of_sorted bigSorted2, bigTake2, bigCutoff2]

theorem bigPc : productCounts bigRecords [((0:ℕ), (1:ℚ)/6)] = [] := by
  simp [productCounts, bigRecords, kwRecord]

theorem bigRun1_eval :
    search zeroScorer bigSm ['q'] bigRecords 51 = [kwDeal1, padDeal 1] := by
  have hfk : fetchK 51 = 510 := by norm_num [fetchK]
  have hkw : keywordSearch ['q'] bigRecords 510 = [(0, 1/6)] :=
    big_keywordSearch (by norm_num)
  have hfz := fuzzySearch_zero ['q'] bigRecords 510
  have hpcs : productCountsStrong bigRecords ([] : List (ℕ × ℚ)) = [] := rfl
  have hgate : gibberishGate zeroScorer ['q'] bigRecords (fetchK 51) = false := by
    rw [hfk]
    simp [gibberishGate, hkw]
  unfold search
  rw [hgate]
  simp only [Bool.false_eq_true, if_false]
  simp only [searchPipeline]
  rw [hfk, hkw, hfz, bigModeScores1, bigHits1, bigDeals1, bigPc, hpcs]
  simp only [List.isEmpty_nil, Bool.not_true, Bool.false_eq_true, if_false]
  rw [bigBoost1, bigMapSnd1, bigFinalize1]

theorem bigRun2_eval :
    search zeroScorer bigSm ['q'] bigRecords 52 = [kwDeal2] := by
  have hfk : fetchK 52 = 520 := by norm_num [fetchK]
  have hkw : keywordSearch ['q'] bigRecords 520 = [(0, 1/6)] :=
    big_keywordSearch (by norm_num)
  have hfz := fuzzySearch_zero ['q'] bigRecords 520
  have hpcs : productCountsStrong bigRecords ([] : List (ℕ × ℚ)) = [] := rfl
  have hgate : gibberishGate zeroScorer ['q'] bigRecords (fetchK 52) = false := by
    rw [hfk]
    simp [gibberishGate, hkw]
  unfold search
  rw [hgate]
  simp only [Bool.false_eq_true, if_false]
  simp only [searchPipeline]
  rw [hfk, hkw, hfz, bigModeScores2, bigHits2, bigDeals2, bigPc, hpcs]
  simp only [List.isEmpty_nil, Bool.not_true, Bool.false_eq_true, if_false]
  rw [bigBoost2, bigMapSnd2, bigFinalize2]

theorem adaptiveCutoff_prefix {l1 l2 : List DealResult} (h : l1 <+: l2) :
    adaptiveCutoff l1 <+: adaptiveCutoff l2 := by
  cases l1 with
  | nil =>
    simp only [adaptiveCutoff]
    exact List.nil_prefix
  | cons d0 rest =>
    cases l2 with
    | nil => exact absurd (List.prefix_nil.1 h) (List.cons_ne_nil d0 rest)
    | cons e0 rest2 =>
      have hd : d0 = e0 := by
        obtain ⟨t, ht⟩ := h
        simpa using congrArg List.head? ht
      subst hd
      simp only [adaptiveCutoff]
      exact h.filter _

theorem finalizeResults_prefix (k1 k2 : ℕ) (hk : k1 ≤ k2) (l : List DealResult) :
    finalizeResults k1 l <+: finalizeResults k2 l := by
  unfold finalizeResults
  apply adaptiveCutoff_prefix
  rw [show (sortDealsDesc l).take k1 = ((sortDealsDesc l).take k2).take k1 by
    rw [List.take_take, min_eq_left hk]]
  exact List.take_prefix _ _

/-- C8, amended: calling search with limits k1 ≤ k2 yields a
prefix-consistent pair of results — the k1 result is literally a prefix of
the k2 result — provided the two limits induce the same fetch size
(fetch_k = max(top_k * 10, 500)), in particular whenever k2 ≤ 50. Without
that proviso the claim fails: the fetch size is coupled to top_k, and a
larger top_k can change the retriever truncation, the fused scores, the
top score and hence the adaptive cutoff (see the counterexample). -/
theorem C8_topk_prefix_consistent (scorer : Str → Str → ℚ)
    (smFn : ℕ → List (ℕ × ℚ)) (query : Str) (records : List SearchRecord)
    (k1 k2 : ℕ) (hk : k1 ≤ k2) (hfk : fetchK k1 = fetchK k2) :
    search scorer smFn query records k1 <+: search scorer smFn query records k2 := by
  unfold search
  rw [hfk]
  by_cases hg : gibberishGate scorer query records (fetchK k2) = true
  · rw [if_pos hg, if_pos hg]
  · rw [if_neg hg, if_neg hg]
    simp only [searchPipeline]
    rw [hfk]
    exact finalizeResults_prefix k1 k2 hk _

/-- Witness for C8 with both limits at or below the 500-record fetch
floor, where the fetch sizes agree. -/
theorem C8_topk_prefix_consistent_witness :
    10 ≤ 20 ∧ fetchK 10 = fetchK 20 ∧
    search zeroScorer emptySm ['a'] [sampleRecord] 10 <+:
      search zeroScorer emptySm ['a'] [sampleRecord] 20 :=
  ⟨by norm_num, by decide,
    C8_topk_prefix_consistent zeroScorer emptySm ['a'] [sampleRecord] 10 20
      (by norm_num) (by decide)⟩

/-- Counterexample to C8 as claimed: with top_k = 51 versus 52 the fetch
size jumps from 510 to 520; the larger fetch hands the keyword-matched
offer an extra (low) semantic similarity, which raises the top score and
with it the adaptive cutoff, and the deal ranked second in the top_k = 51
result is absent from the top_k = 52 result altogether — at no rank. -/
theorem C8_fetch_coupling_counterexample :
    51 ≤ 52 ∧
    padDeal 1 ∈ search zeroScorer bigSm ['q'] bigRecords 51 ∧
    padDeal 1 ∉ search zeroScorer bigSm ['q'] bigRecords 52 := by
  refine ⟨by norm_num, ?_, ?_⟩
  · rw [bigRun1_eval]
    simp
  · rw [bigRun2_eval]
    intro hmem
    have heq : padDeal 1 = kwDeal2 := List.mem_singleton.1 hmem
    have hid := congrArg DealResult.offer_id heq
    simp [padDeal, kwDeal2] at hid

end SafewayDeals
